import Mathlib

/-!
Verification of the ibig big-integer library core: a shallow embedding of the
shift, byte-conversion, machine-integer conversion, formatting and modular
multiplication code, together with proofs of the specification claims.

The build is the 64-bit one: `Word = u64`, `WORD_BITS = 64`, `WORD_BYTES = 8`,
`usize` is 64 bits wide. Machine words are embedded as `Nat` with explicit
`% 2 ^ 64` at the operations that can overflow.
-/

namespace Ibig

/-- Number of bits in a machine word `Word` (64-bit build). -/
def WORD_BITS : Nat := 64

/-- Number of bytes in a machine word. -/
def WORD_BYTES : Nat := 8

/-- First value that does not fit in a `Word`. -/
def wordBound : Nat := 2 ^ WORD_BITS

/-- The value `usize::MAX` on the 64-bit build; `TryInto<usize>` on a wider
integer succeeds exactly for values up to this bound. -/
def usizeMax : Nat := 2 ^ 64 - 1

/-- The magnitude representation `Repr` of `UBig` from `ubig.rs` (modelled from
the spec, section 3, the file itself being absent from the sources): `Small` is
one word, `Large` is a little-endian word sequence. -/
inductive UBig where
  | small (word : Nat)
  | large (buffer : List Nat)
deriving DecidableEq, Repr

/-- Value of a little-endian word sequence. -/
def valWords : List Nat → Nat
  | [] => 0
  | w :: ws => w + 2 ^ 64 * valWords ws

/-- Numeric value of a `UBig`. -/
def UBig.val : UBig → Nat
  | .small w => w
  | .large ws => valWords ws

/-- Representation invariant of `UBig` (spec section 3): a `Small` word is any
machine word; a `Large` buffer has at least two words, every entry fits in a
word, and the top word is nonzero. -/
def UBig.WF : UBig → Prop
  | .small w => w < 2 ^ 64
  | .large ws => 2 ≤ ws.length ∧ (∀ w ∈ ws, w < 2 ^ 64) ∧ ws.getLast? ≠ some 0

instance : DecidablePred UBig.WF := by
  intro u
  cases u with
  | small w => exact inferInstanceAs (Decidable (w < 2 ^ 64))
  | large ws => exact inferInstanceAs (Decidable (_ ∧ _ ∧ _))

/-- `UBig::is_zero` (modelled from the spec: canonical zero is `Small(0)`,
`ubig.rs` being absent from the sources). -/
def UBig.isZero : UBig → Bool
  | .small 0 => true
  | _ => false

/-- `UBig::from_word`. -/
def UBig.fromWord (w : Nat) : UBig := .small w

/-- Strip the trailing (most significant) zero words of a buffer; this is
`Buffer::pop_leading_zeros` from `buffer.rs` (modelled from the spec,
section 4.2, the file being absent from the sources). -/
def popLeadingZeros (ws : List Nat) : List Nat :=
  (ws.reverse.dropWhile (· = 0)).reverse

/-- `Buffer::into::<UBig>` finalization (modelled from the spec, section 4.2:
strip top zero words, collapse to `Small` if zero or one word remains). -/
def bufferInto (ws : List Nat) : UBig :=
  match popLeadingZeros ws with
  | [] => UBig.small 0
  | [w] => UBig.small w
  | w0 :: w1 :: rest => UBig.large (w0 :: w1 :: rest)

/-- `u64::leading_zeros` on a machine word. -/
def leadingZeros (w : Nat) : Nat := WORD_BITS - Nat.size w

/-!
Shift kernels from `shift.rs`. The by-reference variants are modelled; the
owned variants (`shl_large_words`, `shl_large_words_bits`, `shr_large_words`,
`shr_large_words_bits`) branch on `Buffer::will_reallocate` purely to reuse the
allocation and write exactly the same limbs in place, so the dispatchers below
stand for both.
-/

/-- `UBig::shl_small_words`: shift one nonzero word left by whole words. -/
def shl_small_words (word shiftWords : Nat) : UBig :=
  bufferInto (List.replicate shiftWords 0 ++ [word])

/-- `UBig::shl_small_words_bits`: shift one nonzero word left by
`shiftWords` words plus `shiftBits` bits, `0 < shiftBits < WORD_BITS`. -/
def shl_small_words_bits (word shiftWords shiftBits : Nat) : UBig :=
  bufferInto (List.replicate shiftWords 0 ++
    [(word <<< shiftBits) % 2 ^ 64, word >>> (WORD_BITS - shiftBits)])

/-- `UBig::shl_small_usize`: shift one word left by `rhs` bits. -/
def shl_small_usize (word rhs : Nat) : UBig :=
  if rhs ≤ leadingZeros word then
    UBig.fromWord ((word <<< rhs) % 2 ^ 64)
  else
    let shiftWords := rhs / WORD_BITS
    let shiftBits := rhs % WORD_BITS
    if shiftBits = 0 then
      shl_small_words word shiftWords
    else
      shl_small_words_bits word shiftWords shiftBits

/-- The carry chain of `UBig::shl_large_ref_words_bits`: position `i` of the
output receives `(words[i] << b) | (words[i-1] >> (WORD_BITS - b))` and the
final position receives the last carry alone. -/
def shlBitsChain (b : Nat) : List Nat → Nat → List Nat
  | [], carry => [carry]
  | w :: ws, carry =>
    (((w <<< b) % 2 ^ 64) ||| carry) :: shlBitsChain b ws (w >>> (WORD_BITS - b))

/-- `UBig::shl_large_ref_words`: shift a word sequence left by whole words. -/
def shl_large_ref_words (words : List Nat) (shiftWords : Nat) : UBig :=
  bufferInto (List.replicate shiftWords 0 ++ words)

/-- `UBig::shl_large_ref_words_bits`. -/
def shl_large_ref_words_bits (words : List Nat) (shiftWords shiftBits : Nat) : UBig :=
  bufferInto (List.replicate shiftWords 0 ++ shlBitsChain shiftBits words 0)

/-- `UBig::shl_large_ref_usize`. -/
def shl_large_ref_usize (words : List Nat) (rhs : Nat) : UBig :=
  let shiftWords := rhs / WORD_BITS
  let shiftBits := rhs % WORD_BITS
  if shiftBits = 0 then
    shl_large_ref_words words shiftWords
  else
    shl_large_ref_words_bits words shiftWords shiftBits

/-- `UBig::shl_ref_usize` (and `shl_usize`, which writes the same limbs). -/
def shl_ref_usize : UBig → Nat → UBig
  | .small w, rhs => shl_small_usize w rhs
  | .large ws, rhs => shl_large_ref_usize ws rhs

/-- `UBig::shr_small_usize`. -/
def shr_small_usize (word rhs : Nat) : UBig :=
  UBig.fromWord (if rhs < WORD_BITS then word >>> rhs else 0)

/-- The output sequence of the loop in `UBig::shr_large_ref_words_bits`:
each word is `(lo >> b) | (hi << (WORD_BITS - b))` and the top word is just
shifted right. -/
def shrBitsChain (b : Nat) : List Nat → List Nat
  | [] => []
  | [w] => [w >>> b]
  | w :: w2 :: ws =>
    ((w >>> b) ||| ((w2 <<< (WORD_BITS - b)) % 2 ^ 64)) :: shrBitsChain b (w2 :: ws)

/-- `UBig::shr_large_ref_words`: shift a word sequence right by whole words. -/
def shr_large_ref_words (words : List Nat) (shiftWords : Nat) : UBig :=
  if words.length ≤ shiftWords then
    UBig.fromWord 0
  else if words.length - shiftWords = 1 then
    UBig.fromWord (words.getD shiftWords 0)
  else
    bufferInto (words.drop shiftWords)

/-- `UBig::shr_large_ref_words_bits`. -/
def shr_large_ref_words_bits (words : List Nat) (shiftWords shiftBits : Nat) : UBig :=
  if words.length ≤ shiftWords then
    UBig.fromWord 0
  else
    let n := words.length - shiftWords
    if n = 1 then
      UBig.fromWord (words.getD shiftWords 0 >>> shiftBits)
    else if n = 2 ∧ words.getD (shiftWords + 1) 0 >>> shiftBits = 0 then
      UBig.fromWord ((words.getD shiftWords 0 >>> shiftBits) |||
        ((words.getD (shiftWords + 1) 0 <<< (WORD_BITS - shiftBits)) % 2 ^ 64))
    else
      bufferInto (shrBitsChain shiftBits (words.drop shiftWords))

/-- `UBig::shr_large_ref_usize`. -/
def shr_large_ref_usize (words : List Nat) (rhs : Nat) : UBig :=
  let shiftWords := rhs / WORD_BITS
  let shiftBits := rhs % WORD_BITS
  if shiftBits = 0 then
    shr_large_ref_words words shiftWords
  else
    shr_large_ref_words_bits words shiftWords shiftBits

/-- `UBig::shr_ref_usize` (and `shr_usize`, which writes the same limbs). -/
def shr_ref_usize : UBig → Nat → UBig
  | .small w, rhs => shr_small_usize w rhs
  | .large ws, rhs => shr_large_ref_usize ws rhs

/-- Outcome of an operation that can abort the process. -/
inductive Panic where
  | tooLarge
  | negativeShift
  | differentRings
deriving DecidableEq, Repr

/-- `UBig::shl_unsigned`: the owned-receiver entry point; the shift amount is
any unsigned integer value (`u8` up to `u128` or `UBig`), and converting it to
`usize` fails above `usizeMax`, which is fatal (`Buffer::panic_too_large`). -/
def shl_unsigned (a : UBig) (rhs : Nat) : Except Panic UBig :=
  if a.isZero then
    .ok a
  else if rhs ≤ usizeMax then
    .ok (shl_ref_usize a rhs)
  else
    .error .tooLarge

/-- `UBig::shl_ref_unsigned`. -/
def shl_ref_unsigned (a : UBig) (rhs : Nat) : Except Panic UBig :=
  if a.isZero then
    .ok (UBig.fromWord 0)
  else if rhs ≤ usizeMax then
    .ok (shl_ref_usize a rhs)
  else
    .error .tooLarge

/-- `UBig::shr_unsigned` / `shr_ref_unsigned`: a shift amount that does not
convert to `usize` yields zero. -/
def shr_ref_unsigned (a : UBig) (rhs : Nat) : Except Panic UBig :=
  if rhs ≤ usizeMax then
    .ok (shr_ref_usize a rhs)
  else
    .ok (UBig.fromWord 0)

/-- Sign of an `IBig`. -/
inductive Sign where
  | positive
  | negative
deriving DecidableEq, Repr

/-- The signed big integer: sign and magnitude. -/
structure IBig where
  sign : Sign
  magnitude : UBig
deriving DecidableEq, Repr

/-- `PrimitiveSigned::to_sign_magnitude` (modelled from the spec,
`primitive.rs` being absent from the sources): sign and absolute value of a
signed machine integer. -/
def toSignMagnitude (x : Int) : Sign × Nat :=
  if x < 0 then (.negative, (-x).toNat) else (.positive, x.toNat)

/-- `UBig::shl_signed`: shift left by a signed primitive integer; negative
amounts are fatal (`panic_shift_negative`). -/
def shl_signed (a : UBig) (rhs : Int) : Except Panic UBig :=
  match toSignMagnitude rhs with
  | (.positive, mag) => shl_unsigned a mag
  | (.negative, _) => .error .negativeShift

/-- `UBig::shr_signed`. -/
def shr_signed (a : UBig) (rhs : Int) : Except Panic UBig :=
  match toSignMagnitude rhs with
  | (.positive, mag) => shr_ref_unsigned a mag
  | (.negative, _) => .error .negativeShift

/-- `Shl<&IBig> for &UBig`: shifting left by an `IBig` amount; a negative
amount is fatal. A `UBig` shift amount converts to `usize` like the primitive
unsigned ones. -/
def shl_ibig (a : UBig) (rhs : IBig) : Except Panic UBig :=
  match rhs.sign with
  | .positive => shl_ref_unsigned a rhs.magnitude.val
  | .negative => .error .negativeShift

/-- `Shr<&IBig> for &UBig`. -/
def shr_ibig (a : UBig) (rhs : IBig) : Except Panic UBig :=
  match rhs.sign with
  | .positive => shr_ref_unsigned a rhs.magnitude.val
  | .negative => .error .negativeShift

/-!
Byte conversions from `convert.rs`. Bytes are `Nat` values below 256.
-/

/-- Value of a little-endian byte sequence. -/
def bytesToNatLE : List Nat → Nat
  | [] => 0
  | b :: bs => b + 256 * bytesToNatLE bs

/-- The source's little-endian partial-word byte decode (modelled from the
spec, section 4.1 endian decode of partial words, `primitive.rs` being absent
from the sources): decode at most `WORD_BYTES` little-endian bytes into a
word. -/
def word_from_le_bytes_part (bytes : List Nat) : Nat :=
  bytesToNatLE bytes

/-- The source's big-endian partial-word byte decode (modelled from the spec,
as above). -/
def word_from_be_bytes_part (bytes : List Nat) : Nat :=
  bytesToNatLE bytes.reverse

/-- The word sequence built by `UBig::from_le_bytes_large`: full 8-byte chunks
(`chunks_exact(WORD_BYTES)` with `Word::from_le_bytes`), then the remainder
decoded as a partial word. -/
def from_le_bytes_words : List Nat → List Nat
  | b0 :: b1 :: b2 :: b3 :: b4 :: b5 :: b6 :: b7 :: rest =>
    bytesToNatLE [b0, b1, b2, b3, b4, b5, b6, b7] :: from_le_bytes_words rest
  | [] => []
  | rest => [word_from_le_bytes_part rest]

/-- `UBig::from_le_bytes`. -/
def from_le_bytes (bytes : List Nat) : UBig :=
  if bytes.length ≤ WORD_BYTES then
    UBig.fromWord (word_from_le_bytes_part bytes)
  else
    bufferInto (from_le_bytes_words bytes)

/-- `UBig::from_be_bytes`. `from_be_bytes_large` walks `rchunks_exact`
from the end of the byte sequence with `Word::from_be_bytes` and decodes the
leading remainder as a partial big-endian word; this is exactly the
little-endian chunk walk over the reversed byte sequence. -/
def from_be_bytes (bytes : List Nat) : UBig :=
  if bytes.length ≤ WORD_BYTES then
    UBig.fromWord (word_from_be_bytes_part bytes)
  else
    bufferInto (from_le_bytes_words bytes.reverse)

/-- The first `k` little-endian bytes of a word (`Word::to_le_bytes` truncated
to `k` bytes). -/
def wordLeBytes (w k : Nat) : List Nat :=
  (List.range k).map (fun i => (w >>> (8 * i)) % 256)

/-- The `skip_bytes` count of `UBig::to_le_bytes`: number of whole zero bytes
at the top of a word. -/
def skipBytes (w : Nat) : Nat := leadingZeros w / 8

/-- `UBig::to_le_bytes`. -/
def to_le_bytes : UBig → List Nat
  | .small x => wordLeBytes x (WORD_BYTES - skipBytes x)
  | .large ws =>
    (ws.dropLast.map (fun w => wordLeBytes w WORD_BYTES)).flatten ++
      wordLeBytes (ws.getLast?.getD 0) (WORD_BYTES - skipBytes (ws.getLast?.getD 0))

/-- `UBig::to_be_bytes`: the top word without its leading zero bytes, then the
remaining words in big-endian order (each word's big-endian bytes are the
reverse of its little-endian bytes). -/
def to_be_bytes : UBig → List Nat
  | .small x => (wordLeBytes x (WORD_BYTES - skipBytes x)).reverse
  | .large ws =>
    (wordLeBytes (ws.getLast?.getD 0) (WORD_BYTES - skipBytes (ws.getLast?.getD 0))).reverse ++
      (ws.dropLast.reverse.map (fun w => (wordLeBytes w WORD_BYTES).reverse)).flatten

/-!
Machine-integer conversions from `convert.rs`. A target type is identified by
its bit width `bits` (8, 16, 32, 64 or 128).
-/

/-- `unsigned_from_words`: convert a `Large` word sequence to an unsigned
primitive of `bits` bits. The byte-copy assembly writes the words verbatim into
the low positions of the target, so a successful result is exactly the value. -/
def unsigned_from_words (bits : Nat) (words : List Nat) : Option Nat :=
  let tWords := bits / 8 / WORD_BYTES
  if tWords ≤ 1 ∨ words.length > tWords then
    none
  else
    some (valWords words)

/-- `unsigned_from_ubig`: `TryFrom<UBig>` for an unsigned primitive of `bits`
bits. On the `Small` representation, `T::try_from(word)` succeeds exactly when
the word fits in the target. -/
def unsigned_from_ubig (bits : Nat) : UBig → Option Nat
  | .small w => if w < 2 ^ bits then some w else none
  | .large ws => unsigned_from_words bits ws

/-- `signed_from_ubig`: `TryFrom<UBig>` for a signed primitive of `bits` bits;
the unsigned magnitude fits exactly when it is below `2 ^ (bits - 1)`. -/
def signed_from_ubig (bits : Nat) : UBig → Option Nat
  | .small w => if w < 2 ^ (bits - 1) then some w else none
  | .large ws =>
    match unsigned_from_words bits ws with
    | none => none
    | some v => if v < 2 ^ (bits - 1) then some v else none

/-- The 16 little-endian bytes of a `u128` value. -/
def u128LeBytes (v : Nat) : List Nat :=
  (List.range 16).map (fun i => (v >>> (8 * i)) % 256)

/-- `ubig_from_unsigned` at the widest primitive (`u128`): a value that fits in
a word becomes `Small`, otherwise the little-endian byte representation is
decoded; narrower primitives always take the first branch. -/
def ubig_from_unsigned (v : Nat) : UBig :=
  if v < 2 ^ 64 then
    UBig.fromWord v
  else
    from_le_bytes (u128LeBytes v)

/-- `ubig_from_signed`: `TryFrom` of a signed primitive into `UBig`;
`T::Unsigned::try_from(x)` fails exactly on negative input. -/
def ubig_from_signed (x : Int) : Option UBig :=
  if x < 0 then none else some (ubig_from_unsigned x.toNat)

/-!
The modular ring from `modular/`. The ring records (`modulo_ring.rs`) and the
fast divisors (`fast_divide.rs`) are absent from the sources; they are modelled
from the spec, section 4.9: the small ring stores the normalized modulus
`m' = m << s` with `s = leading_zeros(m)`, the large ring stores the normalized
modulus words (value `m << s` with `s = leading_zeros(top_word(m))`, same word
count as `m`), and a fast divisor divides exactly.
-/

/-- Modelled from the spec: `ModuloRingSmall` holds the normalized modulus and
its shift (`modulo_ring.rs` is absent from the sources). -/
structure ModuloRingSmall where
  normalized_modulus : Nat
  shift : Nat
deriving DecidableEq, Repr

/-- Modelled from the spec: small-ring construction, `m' = m << s`,
`s = leading_zeros(m)`. -/
def mkRingSmall (m : Nat) : ModuloRingSmall :=
  ⟨m <<< leadingZeros m, leadingZeros m⟩

/-- `ModuloRingSmall::normalize_word`: `extend_word(word) << shift` is a
double word, and the fast divisor returns its remainder by `m'`. -/
def normalize_word (r : ModuloRingSmall) (word : Nat) : Nat :=
  if r.shift = 0 then
    word % r.normalized_modulus
  else
    (word <<< r.shift) % r.normalized_modulus

/-- `ModuloRingSmall::normalize_large`: `div::fast_rem_by_normalized_word`
(absent from the sources, modelled from the spec section 4.5 short division)
reduces the word sequence modulo `m'`, then the remainder is shifted in. -/
def normalize_large (r : ModuloRingSmall) (words : List Nat) : Nat :=
  let rem := valWords words % r.normalized_modulus
  if r.shift = 0 then
    rem
  else
    (rem <<< r.shift) % r.normalized_modulus

/-- `ModuloSmall::from_ubig`. -/
def smallFromUBig (r : ModuloRingSmall) : UBig → Nat
  | .small w => normalize_word r w
  | .large ws => normalize_large r ws

/-- `ModuloSmall::mul_by_normalized_value_in_place`: un-shift the receiver,
take the double-word product with the other normalized value, and keep the
remainder by `m'`. -/
def smallMulNormalized (r : ModuloRingSmall) (a b : Nat) : Nat :=
  ((a >>> r.shift) * b) % r.normalized_modulus

/-- `ModuloSmall::residue`. -/
def smallResidue (r : ModuloRingSmall) (a : Nat) : Nat :=
  a >>> r.shift

/-- Number of words of a value (the `len` of its canonical buffer). -/
def wordCount (v : Nat) : Nat := (Nat.size v + 63) / 64

/-- Modelled from the spec: `ModuloRingLarge` holds the normalized modulus
(as a value, occupying `wordLen` words), its shift, and the word count
(`modulo_ring.rs` is absent from the sources). -/
structure ModuloRingLarge where
  normalized_modulus : Nat
  shift : Nat
  wordLen : Nat
deriving DecidableEq, Repr

/-- Modelled from the spec: large-ring construction from a multi-word modulus,
`s = leading_zeros(top_word(m))`, normalized modulus `m << s` with the same
word count. -/
def mkRingLarge (m : Nat) : ModuloRingLarge :=
  ⟨m <<< (64 * wordCount m - Nat.size m), 64 * wordCount m - Nat.size m, wordCount m⟩

/-- The `n` little-endian words of a value (zero padded at the top). -/
def natToWordsFixed (n v : Nat) : List Nat :=
  (List.range n).map (fun i => (v >>> (64 * i)) % 2 ^ 64)

/-- `ModuloLarge::from_ubig`: shift the value left by the ring shift; a result
shorter than the modulus is only zero-padded, otherwise
`div::div_rem_in_place` (absent from the sources, modelled from the spec
section 4.5) leaves the remainder by `m'` in the low `wordLen` words; the
vector is exactly `wordLen` words. -/
def largeFromUBig (r : ModuloRingLarge) (x : Nat) : List Nat :=
  if wordCount (x <<< r.shift) < r.wordLen then
    natToWordsFixed r.wordLen (x <<< r.shift)
  else
    natToWordsFixed r.wordLen ((x <<< r.shift) % r.normalized_modulus)

/-- `ModuloRingLarge::mul_normalized_values`: multiply into a `2n`-word scratch
(`mul::add_signed_mul_same_len`, exact product), `shift::shr_in_place` by the
ring shift, then `div::div_rem_in_place` by the normalized modulus; the low `n`
words are the result (the multiply and divide kernels are absent from the
sources and modelled from the spec sections 4.4 and 4.5). -/
def mul_normalized_values (r : ModuloRingLarge) (a b : List Nat) : List Nat :=
  natToWordsFixed r.wordLen (((valWords a * valWords b) >>> r.shift) % r.normalized_modulus)

/-- `ModuloLarge::residue`: shift the stored normalized value right by the ring
shift (`shift::shr_in_place`, modelled from the spec). -/
def largeResidue (r : ModuloRingLarge) (ws : List Nat) : Nat :=
  valWords ws >>> r.shift

/-- A small ring element together with the identity of its ring (the model of
the `&ModuloRingSmall` borrow: `ringId` stands for the ring's address). -/
structure ModuloSmall where
  normalized_value : Nat
  ring : ModuloRingSmall
  ringId : Nat
deriving DecidableEq, Repr

/-- A large ring element together with the identity of its ring. -/
structure ModuloLarge where
  normalized_value : List Nat
  ring : ModuloRingLarge
  ringId : Nat
deriving DecidableEq, Repr

/-- `ModuloRepr`: a ring element is in the small or the large representation. -/
inductive Modulo where
  | small (m : ModuloSmall)
  | large (m : ModuloLarge)
deriving DecidableEq, Repr

/-- The identity of the ring an element belongs to. -/
def Modulo.ringIdOf : Modulo → Nat
  | .small m => m.ringId
  | .large m => m.ringId

/-- `check_same_ring` (modelled from the spec: detection uses pointer identity
of the ring, `std::ptr::eq`; `modulo.rs` is absent from the sources). -/
def check_same_ring (a b : Nat) : Bool := a = b

/-- `MulAssign<&Modulo> for Modulo`: matching representations check
`check_same_ring` (fatal on distinct rings) and multiply; mixed
representations are fatal (`Modulo::panic_different_rings`). -/
def moduloMul : Modulo → Modulo → Except Panic Modulo
  | .small x, .small y =>
    if check_same_ring x.ringId y.ringId then
      .ok (.small ⟨smallMulNormalized x.ring x.normalized_value y.normalized_value,
        x.ring, x.ringId⟩)
    else
      .error .differentRings
  | .large x, .large y =>
    if check_same_ring x.ringId y.ringId then
      .ok (.large ⟨mul_normalized_values x.ring x.normalized_value y.normalized_value,
        x.ring, x.ringId⟩)
    else
      .error .differentRings
  | _, _ => .error .differentRings

/-!
Formatting from `fmt.rs`: the `InRadix::format_prepared` routine, over an
already-prepared digit sequence (the prepared width is the digit count).
-/

/-- `core::fmt::Alignment`. -/
inductive Alignment where
  | left
  | right
  | center
deriving DecidableEq, Repr

/-- The formatter state read by `format_prepared`: minimum width, fill
character, alignment, the `+` flag and the `0` flag. -/
structure FmtOptions where
  width : Option Nat
  fill : Char
  align : Option Alignment
  signPlus : Bool
  zeroPad : Bool
deriving DecidableEq, Repr

/-- `InRadix::format_prepared`: choose the sign string, write sign and radix
marker then digits, applying zero padding (after sign and marker, suppressing
the fill character) or fill-character alignment when a minimum width exceeds
the content width. `pfx` is the radix marker such as `0x`. -/
def format_prepared (sign : Sign) (pfx : List Char) (opts : FmtOptions)
    (digits : List Char) : List Char :=
  let signStr : List Char := if sign = .negative then ['-']
    else if opts.signPlus then ['+'] else []
  let width := digits.length + signStr.length + pfx.length
  match opts.width with
  | none => signStr ++ pfx ++ digits
  | some minWidth =>
    if minWidth ≤ width then
      signStr ++ pfx ++ digits
    else if opts.zeroPad then
      signStr ++ pfx ++ List.replicate (minWidth - width) '0' ++ digits
    else
      let left := match opts.align with
        | some .left => 0
        | some .right => minWidth - width
        | none => minWidth - width
        | some .center => (minWidth - width) / 2
      List.replicate left opts.fill ++ signStr ++ pfx ++ digits ++
        List.replicate (minWidth - width - left) opts.fill

/-!
Arithmetic facts about word sequences and canonicalization.
-/

theorem valWords_append (l1 l2 : List Nat) :
    valWords (l1 ++ l2) = valWords l1 + 2 ^ (64 * l1.length) * valWords l2 := by
  induction l1 with
  | nil => simp [valWords]
  | cons w ws ih =>
    show w + 2 ^ 64 * valWords (ws ++ l2)
      = w + 2 ^ 64 * valWords ws + 2 ^ (64 * (ws.length + 1)) * valWords l2
    rw [ih, show 64 * (ws.length + 1) = 64 + 64 * ws.length from by ring, pow_add]
    ring

theorem valWords_replicate_zero (n : Nat) (l : List Nat) :
    valWords (List.replicate n 0 ++ l) = 2 ^ (64 * n) * valWords l := by
  rw [valWords_append, List.length_replicate]
  have : valWords (List.replicate n 0) = 0 := by
    induction n with
    | zero => rfl
    | succ k ih => simp [List.replicate, valWords, ih]
  omega

theorem valWords_dropWhile_zero_reverse (r : List Nat) :
    valWords (r.dropWhile (· = 0)).reverse = valWords r.reverse := by
  induction r with
  | nil => rfl
  | cons x r' ih =>
    by_cases hx : x = 0
    · subst hx
      rw [List.dropWhile_cons_of_pos (by simp)]
      rw [ih, List.reverse_cons, valWords_append]
      simp [valWords]
    · rw [List.dropWhile_cons_of_neg (by simp [hx])]

theorem popLeadingZeros_val (ws : List Nat) :
    valWords (popLeadingZeros ws) = valWords ws := by
  unfold popLeadingZeros
  rw [valWords_dropWhile_zero_reverse, List.reverse_reverse]

theorem bufferInto_val (ws : List Nat) : (bufferInto ws).val = valWords ws := by
  rw [← popLeadingZeros_val ws]
  unfold bufferInto
  rcases h : popLeadingZeros ws with _ | ⟨w0, _ | ⟨w1, rest⟩⟩ <;>
    simp [UBig.val, valWords, h]

theorem lor_eq_add_of_mod {b : Nat} (x c : Nat) (hx : x % 2 ^ b = 0)
    (hc : c < 2 ^ b) : x ||| c = x + c := by
  have hdvd : 2 ^ b ∣ x := Nat.dvd_of_mod_eq_zero hx
  obtain ⟨q, rfl⟩ := hdvd
  exact (Nat.mul_add_lt_is_or hc q).symm

theorem pow_split_64 (k : Nat) : 2 ^ (64 * (k / 64)) * 2 ^ (k % 64) = 2 ^ k := by
  rw [← pow_add]
  congr 1
  omega

theorem two_pow_split (b : Nat) (hb : b ≤ 64) :
    (2 : Nat) ^ 64 = 2 ^ (64 - b) * 2 ^ b := by
  rw [← pow_add]
  congr 1
  omega

theorem shiftLeft_mod_add_shiftRight (w b : Nat) (hb : b ≤ 64) :
    (w <<< b) % 2 ^ 64 + 2 ^ 64 * (w >>> (64 - b)) = w * 2 ^ b := by
  have hdiv : w * 2 ^ b / 2 ^ 64 = w / 2 ^ (64 - b) := by
    rw [two_pow_split b hb, Nat.mul_comm (2 ^ (64 - b)), ← Nat.div_div_eq_div_mul,
      Nat.mul_div_cancel _ (Nat.two_pow_pos b)]
  rw [Nat.shiftLeft_eq, Nat.shiftRight_eq_div_pow, ← hdiv]
  exact Nat.mod_add_div _ _

theorem shiftLeft_mod_low_zero (w b : Nat) (hb : b ≤ 64) :
    ((w <<< b) % 2 ^ 64) % 2 ^ b = 0 := by
  rw [Nat.shiftLeft_eq, two_pow_split b hb, Nat.mul_mod_mul_right]
  exact Nat.mul_mod_left _ _

theorem shiftRight_lt_of_lt (w b : Nat) (hw : w < 2 ^ 64) (hb : b ≤ 64) :
    w >>> (64 - b) < 2 ^ b := by
  rw [Nat.shiftRight_eq_div_pow]
  apply Nat.div_lt_of_lt_mul
  calc w < 2 ^ 64 := hw
    _ = 2 ^ (64 - b) * 2 ^ b := two_pow_split b hb

theorem shlBitsChain_val (b : Nat) (hb : b ≤ 64) (ws : List Nat) :
    ∀ carry, (∀ w ∈ ws, w < 2 ^ 64) → carry < 2 ^ b →
    valWords (shlBitsChain b ws carry) = carry + 2 ^ b * valWords ws := by
  induction ws with
  | nil =>
    intro carry _ _
    simp [shlBitsChain, valWords]
  | cons w ws ih =>
    intro carry hall hc
    have hw : w < 2 ^ 64 := hall w (by simp)
    have hall' : ∀ x ∈ ws, x < 2 ^ 64 := fun x hx => hall x (by simp [hx])
    have hcarry : w >>> (WORD_BITS - b) < 2 ^ b := by
      simpa [WORD_BITS] using shiftRight_lt_of_lt w b hw hb
    have hlor : ((w <<< b) % 2 ^ 64) ||| carry = (w <<< b) % 2 ^ 64 + carry :=
      lor_eq_add_of_mod _ _ (shiftLeft_mod_low_zero w b hb) hc
    simp only [shlBitsChain, valWords]
    rw [hlor, ih _ hall' hcarry]
    simp only [WORD_BITS]
    have key : (w <<< b) % 2 ^ 64 + carry +
        2 ^ 64 * (w >>> (64 - b) + 2 ^ b * valWords ws)
        = carry + ((w <<< b) % 2 ^ 64 + 2 ^ 64 * (w >>> (64 - b)))
          + 2 ^ 64 * (2 ^ b * valWords ws) := by
      ring
    rw [key, shiftLeft_mod_add_shiftRight w b hb]
    ring

theorem valWords_lt (ws : List Nat) (hall : ∀ w ∈ ws, w < 2 ^ 64) :
    valWords ws < 2 ^ (64 * ws.length) := by
  induction ws with
  | nil => simp [valWords]
  | cons w ws ih =>
    have hw : w < 2 ^ 64 := hall w (by simp)
    have hws := ih (fun x hx => hall x (by simp [hx]))
    show w + 2 ^ 64 * valWords ws < 2 ^ (64 * (ws.length + 1))
    have : 2 ^ (64 * (ws.length + 1)) = 2 ^ 64 * 2 ^ (64 * ws.length) := by
      rw [← pow_add]
      congr 1
      ring
    rw [this]
    calc w + 2 ^ 64 * valWords ws
        < 2 ^ 64 + 2 ^ 64 * valWords ws := by omega
      _ = 2 ^ 64 * (valWords ws + 1) := by ring
      _ ≤ 2 ^ 64 * 2 ^ (64 * ws.length) := by
          exact Nat.mul_le_mul_left _ (by omega)

theorem valWords_drop (n : Nat) :
    ∀ ws : List Nat, (∀ w ∈ ws, w < 2 ^ 64) →
    valWords (ws.drop n) = valWords ws / 2 ^ (64 * n) := by
  induction n with
  | zero => intro ws _; simp
  | succ m ih =>
    intro ws hall
    cases ws with
    | nil => simp [valWords]
    | cons w ws' =>
      have hw : w < 2 ^ 64 := hall w (by simp)
      have hall' : ∀ x ∈ ws', x < 2 ^ 64 := fun x hx => hall x (by simp [hx])
      show valWords (ws'.drop m) = valWords (w :: ws') / 2 ^ (64 * (m + 1))
      rw [ih ws' hall']
      have hstep : valWords (w :: ws') / 2 ^ 64 = valWords ws' := by
        show (w + 2 ^ 64 * valWords ws') / 2 ^ 64 = valWords ws'
        rw [Nat.add_mul_div_left _ _ (Nat.two_pow_pos 64),
          Nat.div_eq_of_lt hw]
        omega
      have hpow : (2 : Nat) ^ (64 * (m + 1)) = 2 ^ 64 * 2 ^ (64 * m) := by
        rw [← pow_add]
        congr 1
        ring
      rw [hpow, ← Nat.div_div_eq_div_mul, hstep]

theorem shrBitsChain_val (b : Nat) (hb0 : 0 < b) (hb : b ≤ 64) :
    ∀ ws : List Nat, (∀ w ∈ ws, w < 2 ^ 64) →
    valWords (shrBitsChain b ws) = valWords ws / 2 ^ b := by
  intro ws
  induction ws with
  | nil => intro _; simp [shrBitsChain, valWords]
  | cons w tail ih =>
    intro hall
    have hw : w < 2 ^ 64 := hall w (by simp)
    have hall' : ∀ x ∈ tail, x < 2 ^ 64 := fun x hx => hall x (by simp [hx])
    cases tail with
    | nil =>
      show valWords [w >>> b] = valWords [w] / 2 ^ b
      simp [valWords, Nat.shiftRight_eq_div_pow, Nat.zero_div]
    | cons w2 rest =>
      have hw2 : w2 < 2 ^ 64 := hall' w2 (by simp)
      have hx : (w2 <<< (WORD_BITS - b)) % 2 ^ 64 = (w2 % 2 ^ b) * 2 ^ (64 - b) := by
        simp only [WORD_BITS]
        rw [Nat.shiftLeft_eq, two_pow_split (64 - b) (by omega),
          show 64 - (64 - b) = b from by omega, Nat.mul_mod_mul_right]
      have hxmod : ((w2 <<< (WORD_BITS - b)) % 2 ^ 64) % 2 ^ (64 - b) = 0 := by
        rw [hx]
        exact Nat.mul_mod_left _ _
      have hclt : w >>> b < 2 ^ (64 - b) := by
        rw [Nat.shiftRight_eq_div_pow]
        apply Nat.div_lt_of_lt_mul
        calc w < 2 ^ 64 := hw
          _ = 2 ^ b * 2 ^ (64 - b) := by rw [← pow_add]; congr 1; omega
      have hlor : (w >>> b) ||| ((w2 <<< (WORD_BITS - b)) % 2 ^ 64)
          = ((w2 <<< (WORD_BITS - b)) % 2 ^ 64) + w >>> b := by
        rw [Nat.lor_comm]
        exact lor_eq_add_of_mod _ _ hxmod hclt
      simp only [shrBitsChain, valWords]
      rw [hlor, hx, ih hall']
      have htail : valWords (w2 :: rest) / 2 ^ b
          = w2 / 2 ^ b + 2 ^ (64 - b) * valWords rest := by
        show (w2 + 2 ^ 64 * valWords rest) / 2 ^ b = _
        rw [two_pow_split b hb, Nat.mul_comm (2 ^ (64 - b)) (2 ^ b), Nat.mul_assoc,
          Nat.add_mul_div_left _ _ (Nat.two_pow_pos b)]
      have hgoal : (w + 2 ^ 64 * (w2 + 2 ^ 64 * valWords rest)) / 2 ^ b
          = w / 2 ^ b + 2 ^ (64 - b) * (w2 + 2 ^ 64 * valWords rest) := by
        rw [two_pow_split b hb, Nat.mul_comm (2 ^ (64 - b)) (2 ^ b), Nat.mul_assoc,
          Nat.add_mul_div_left _ _ (Nat.two_pow_pos b)]
      rw [hgoal, htail]
      rw [Nat.shiftRight_eq_div_pow]
      have hmoddiv : w2 % 2 ^ b + 2 ^ b * (w2 / 2 ^ b) = w2 := Nat.mod_add_div _ _
      calc w2 % 2 ^ b * 2 ^ (64 - b) + w / 2 ^ b +
            2 ^ 64 * (w2 / 2 ^ b + 2 ^ (64 - b) * valWords rest)
          = w / 2 ^ b + 2 ^ (64 - b) * (w2 % 2 ^ b + 2 ^ b * (w2 / 2 ^ b))
            + 2 ^ 64 * 2 ^ (64 - b) * valWords rest := by
            rw [two_pow_split b hb]
            ring
        _ = w / 2 ^ b + 2 ^ (64 - b) * (w2 + 2 ^ 64 * valWords rest) := by
            rw [hmoddiv]
            ring

/-!
Values computed by the shift kernels.
-/

theorem shl_small_words_val (w sw : Nat) :
    (shl_small_words w sw).val = 2 ^ (64 * sw) * w := by
  unfold shl_small_words
  rw [bufferInto_val, valWords_replicate_zero]
  simp [valWords]

theorem shl_small_words_bits_val (w sw b : Nat) (hb : b ≤ 64) :
    (shl_small_words_bits w sw b).val = 2 ^ (64 * sw) * (w * 2 ^ b) := by
  unfold shl_small_words_bits
  rw [bufferInto_val, valWords_replicate_zero]
  congr 1
  show (w <<< b) % 2 ^ 64 + 2 ^ 64 * (w >>> (WORD_BITS - b) + 2 ^ 64 * 0) = w * 2 ^ b
  simp only [WORD_BITS, Nat.mul_zero, Nat.add_zero]
  exact shiftLeft_mod_add_shiftRight w b hb

theorem shl_large_ref_words_val (ws : List Nat) (sw : Nat) :
    (shl_large_ref_words ws sw).val = 2 ^ (64 * sw) * valWords ws := by
  unfold shl_large_ref_words
  rw [bufferInto_val, valWords_replicate_zero]

theorem shl_large_ref_words_bits_val (ws : List Nat) (sw b : Nat) (hb : b ≤ 64)
    (hall : ∀ w ∈ ws, w < 2 ^ 64) :
    (shl_large_ref_words_bits ws sw b).val = 2 ^ (64 * sw) * (2 ^ b * valWords ws) := by
  unfold shl_large_ref_words_bits
  rw [bufferInto_val, valWords_replicate_zero,
    shlBitsChain_val b hb ws 0 hall (Nat.two_pow_pos b), Nat.zero_add]

theorem shl_ref_usize_val (a : UBig) (ha : a.WF) (k : Nat) :
    (shl_ref_usize a k).val = a.val * 2 ^ k := by
  cases a with
  | small w =>
    have hw : w < 2 ^ 64 := ha
    show (shl_small_usize w k).val = w * 2 ^ k
    unfold shl_small_usize
    by_cases hk : k ≤ leadingZeros w
    · rw [if_pos hk]
      have h2 : Nat.size w + k ≤ 64 := by
        have := Nat.size_le.mpr hw
        unfold leadingZeros WORD_BITS at hk
        omega
      have hlt : w * 2 ^ k < 2 ^ 64 := by
        calc w * 2 ^ k < 2 ^ Nat.size w * 2 ^ k :=
              (Nat.mul_lt_mul_right (Nat.two_pow_pos k)).mpr (Nat.lt_size_self w)
          _ = 2 ^ (Nat.size w + k) := by rw [pow_add]
          _ ≤ 2 ^ 64 := Nat.pow_le_pow_right (by norm_num) h2
      show (w <<< k) % 2 ^ 64 = w * 2 ^ k
      rw [Nat.shiftLeft_eq, Nat.mod_eq_of_lt hlt]
    · rw [if_neg hk]
      simp only [WORD_BITS]
      by_cases hb : k % 64 = 0
      · rw [if_pos hb, shl_small_words_val]
        have h64 : 64 * (k / 64) = k := by omega
        rw [h64, Nat.mul_comm]
      · rw [if_neg hb,
          shl_small_words_bits_val w _ _ (le_of_lt (Nat.mod_lt k (by norm_num)))]
        calc 2 ^ (64 * (k / 64)) * (w * 2 ^ (k % 64))
            = w * (2 ^ (64 * (k / 64)) * 2 ^ (k % 64)) := by ring
          _ = w * 2 ^ k := by rw [pow_split_64]
  | large ws =>
    obtain ⟨hlen, hall, hlast⟩ := ha
    show (shl_large_ref_usize ws k).val = valWords ws * 2 ^ k
    unfold shl_large_ref_usize
    simp only [WORD_BITS]
    by_cases hb : k % 64 = 0
    · rw [if_pos hb, shl_large_ref_words_val]
      have h64 : 64 * (k / 64) = k := by omega
      rw [h64, Nat.mul_comm]
    · rw [if_neg hb,
        shl_large_ref_words_bits_val ws _ _ (le_of_lt (Nat.mod_lt k (by norm_num))) hall]
      calc 2 ^ (64 * (k / 64)) * (2 ^ (k % 64) * valWords ws)
          = valWords ws * (2 ^ (64 * (k / 64)) * 2 ^ (k % 64)) := by ring
        _ = valWords ws * 2 ^ k := by rw [pow_split_64]

theorem drop_singleton_of_sub_one (ws : List Nat) (sw : Nat) (hswlt : sw < ws.length)
    (h2 : ws.length - sw = 1) : ws.drop sw = [ws.getD sw 0] := by
  rw [List.drop_eq_getElem_cons hswlt]
  have hnil : ws.drop (sw + 1) = [] := by
    apply List.eq_nil_of_length_eq_zero
    rw [List.length_drop]
    omega
  rw [hnil]
  simp [List.getD_eq_getElem?_getD, List.getElem?_eq_getElem hswlt]

theorem shr_large_ref_words_val (ws : List Nat) (sw : Nat)
    (hall : ∀ w ∈ ws, w < 2 ^ 64) :
    (shr_large_ref_words ws sw).val = valWords ws / 2 ^ (64 * sw) := by
  unfold shr_large_ref_words
  by_cases h1 : ws.length ≤ sw
  · rw [if_pos h1]
    have hlt : valWords ws < 2 ^ (64 * sw) :=
      lt_of_lt_of_le (valWords_lt ws hall)
        (Nat.pow_le_pow_right (by norm_num) (by omega))
    show (0 : Nat) = valWords ws / 2 ^ (64 * sw)
    rw [Nat.div_eq_of_lt hlt]
  · rw [if_neg h1, ← valWords_drop sw ws hall]
    by_cases h2 : ws.length - sw = 1
    · rw [if_pos h2, drop_singleton_of_sub_one ws sw (by omega) h2]
      show (ws.getD sw 0 : Nat) = valWords [ws.getD sw 0]
      simp [valWords]
    · rw [if_neg h2, bufferInto_val]

theorem shr_large_ref_words_bits_val (ws : List Nat) (sw b : Nat)
    (hall : ∀ w ∈ ws, w < 2 ^ 64) (hb0 : 0 < b) (hb : b ≤ 64) :
    (shr_large_ref_words_bits ws sw b).val = valWords ws / 2 ^ (64 * sw + b) := by
  have hallD : ∀ w ∈ ws.drop sw, w < 2 ^ 64 :=
    fun w hw => hall w (List.mem_of_mem_drop hw)
  have htarget : valWords ws / 2 ^ (64 * sw + b) = valWords (ws.drop sw) / 2 ^ b := by
    rw [pow_add, ← Nat.div_div_eq_div_mul, ← valWords_drop sw ws hall]
  rw [htarget]
  have hchain : valWords (shrBitsChain b (ws.drop sw)) = valWords (ws.drop sw) / 2 ^ b :=
    shrBitsChain_val b hb0 hb _ hallD
  unfold shr_large_ref_words_bits
  by_cases h1 : ws.length ≤ sw
  · rw [if_pos h1]
    have hnil : ws.drop sw = [] := by
      apply List.eq_nil_of_length_eq_zero
      rw [List.length_drop]
      omega
    show (0 : Nat) = valWords (ws.drop sw) / 2 ^ b
    rw [hnil]
    simp [valWords]
  · rw [if_neg h1]
    have hswlt : sw < ws.length := by omega
    by_cases h2 : ws.length - sw = 1
    · rw [if_pos h2]
      show ws.getD sw 0 >>> b = valWords (ws.drop sw) / 2 ^ b
      rw [drop_singleton_of_sub_one ws sw hswlt h2]
      show ws.getD sw 0 >>> b = valWords [ws.getD sw 0] / 2 ^ b
      simp [valWords, Nat.shiftRight_eq_div_pow]
    · rw [if_neg h2]
      by_cases h3 : ws.length - sw = 2 ∧ ws.getD (sw + 1) 0 >>> b = 0
      · rw [if_pos h3]
        obtain ⟨hlen2, hzero⟩ := h3
        have hsw1 : sw + 1 < ws.length := by omega
        have hdrop : ws.drop sw = [ws.getD sw 0, ws.getD (sw + 1) 0] := by
          rw [List.drop_eq_getElem_cons hswlt, List.drop_eq_getElem_cons hsw1]
          have hnil : ws.drop (sw + 2) = [] := by
            apply List.eq_nil_of_length_eq_zero
            rw [List.length_drop]
            omega
          rw [hnil]
          simp [List.getD_eq_getElem?_getD, List.getElem?_eq_getElem hswlt,
            List.getElem?_eq_getElem hsw1]
        rw [← hchain, hdrop]
        simp only [shrBitsChain, valWords]
        rw [hzero]
        show (ws.getD sw 0 >>> b) ||| ((ws.getD (sw + 1) 0 <<< (WORD_BITS - b)) % 2 ^ 64)
          = _ + 2 ^ 64 * (0 + 2 ^ 64 * 0)
        ring
      · rw [if_neg h3, bufferInto_val, hchain]

theorem shr_ref_usize_val (a : UBig) (ha : a.WF) (k : Nat) :
    (shr_ref_usize a k).val = a.val / 2 ^ k := by
  cases a with
  | small w =>
    have hw : w < 2 ^ 64 := ha
    show (shr_small_usize w k).val = w / 2 ^ k
    unfold shr_small_usize
    by_cases hk : k < WORD_BITS
    · rw [if_pos hk]
      exact Nat.shiftRight_eq_div_pow w k
    · rw [if_neg hk]
      have hlt : w < 2 ^ k :=
        lt_of_lt_of_le hw
          (Nat.pow_le_pow_right (by norm_num) (by unfold WORD_BITS at hk; omega))
      show (0 : Nat) = w / 2 ^ k
      rw [Nat.div_eq_of_lt hlt]
  | large ws =>
    obtain ⟨hlen, hall, hlast⟩ := ha
    show (shr_large_ref_usize ws k).val = valWords ws / 2 ^ k
    unfold shr_large_ref_usize
    simp only [WORD_BITS]
    by_cases hb : k % 64 = 0
    · rw [if_pos hb, shr_large_ref_words_val ws _ hall]
      congr 2
      omega
    · rw [if_neg hb, shr_large_ref_words_bits_val ws _ _ hall
        (Nat.pos_of_ne_zero hb) (le_of_lt (Nat.mod_lt k (by norm_num)))]
      congr 2
      omega

/-!
Canonicity: the shift kernels return well-formed results.
-/

theorem head?_dropWhile_neg {α : Type} (p : α → Bool) (l : List α) (x : α)
    (h : (l.dropWhile p).head? = some x) : p x = false := by
  induction l with
  | nil => simp [List.dropWhile] at h
  | cons a l ih =>
    by_cases hp : p a
    · rw [List.dropWhile_cons_of_pos hp] at h
      exact ih h
    · rw [List.dropWhile_cons_of_neg hp] at h
      simp only [List.head?_cons, Option.some.injEq] at h
      rw [← h]
      exact Bool.of_not_eq_true hp

theorem popLeadingZeros_getLast? (ws : List Nat) :
    (popLeadingZeros ws).getLast? ≠ some 0 := by
  unfold popLeadingZeros
  rw [List.getLast?_reverse]
  intro h
  have := head?_dropWhile_neg (· = 0) ws.reverse 0 h
  simp at this

theorem mem_popLeadingZeros {x : Nat} {ws : List Nat}
    (h : x ∈ popLeadingZeros ws) : x ∈ ws := by
  unfold popLeadingZeros at h
  rw [List.mem_reverse] at h
  have hx : x ∈ ws.reverse := (List.dropWhile_sublist (· = 0)).mem h
  rwa [List.mem_reverse] at hx

theorem bufferInto_WF (ws : List Nat) (hall : ∀ w ∈ ws, w < 2 ^ 64) :
    (bufferInto ws).WF := by
  unfold bufferInto
  rcases h : popLeadingZeros ws with _ | ⟨w0, _ | ⟨w1, rest⟩⟩
  · show (0 : Nat) < 2 ^ 64
    exact Nat.two_pow_pos 64
  · show w0 < 2 ^ 64
    exact hall w0 (mem_popLeadingZeros (h ▸ List.mem_singleton_self w0))
  · refine ⟨by simp, fun w hw => hall w (mem_popLeadingZeros (h ▸ hw)), ?_⟩
    rw [← h]
    exact popLeadingZeros_getLast? ws

theorem shiftRight_lt_64 (w b : Nat) (hw : w < 2 ^ 64) : w >>> b < 2 ^ 64 := by
  rw [Nat.shiftRight_eq_div_pow]
  exact lt_of_le_of_lt (Nat.div_le_self _ _) hw

theorem shrBitsChain_lt (b : Nat) :
    ∀ ws : List Nat, (∀ w ∈ ws, w < 2 ^ 64) →
    ∀ x ∈ shrBitsChain b ws, x < 2 ^ 64 := by
  intro ws
  induction ws with
  | nil => intro _ x hx; simp [shrBitsChain] at hx
  | cons w tail ih =>
    intro hall x hx
    have hw : w < 2 ^ 64 := hall w (by simp)
    have hall' : ∀ y ∈ tail, y < 2 ^ 64 := fun y hy => hall y (by simp [hy])
    cases tail with
    | nil =>
      simp only [shrBitsChain, List.mem_singleton] at hx
      subst hx
      exact shiftRight_lt_64 w b hw
    | cons w2 rest =>
      simp only [shrBitsChain, List.mem_cons] at hx
      rcases hx with hx | hx
      · subst hx
        exact Nat.or_lt_two_pow (shiftRight_lt_64 w b hw)
          (Nat.mod_lt _ (Nat.two_pow_pos 64))
      · exact ih hall' x hx

theorem shr_ref_usize_WF (a : UBig) (ha : a.WF) (k : Nat) :
    (shr_ref_usize a k).WF := by
  cases a with
  | small w =>
    have hw : w < 2 ^ 64 := ha
    show (shr_small_usize w k).WF
    unfold shr_small_usize
    by_cases hk : k < WORD_BITS
    · rw [if_pos hk]
      exact shiftRight_lt_64 w k hw
    · rw [if_neg hk]
      exact Nat.two_pow_pos 64
  | large ws =>
    obtain ⟨hlen, hall, hlast⟩ := ha
    show (shr_large_ref_usize ws k).WF
    have hget : ∀ i, i < ws.length → ws.getD i 0 < 2 ^ 64 := by
      intro i hi
      rw [List.getD_eq_getElem?_getD, List.getElem?_eq_getElem hi]
      exact hall _ (List.getElem_mem hi)
    unfold shr_large_ref_usize
    by_cases hb : k % WORD_BITS = 0
    · rw [if_pos hb]
      unfold shr_large_ref_words
      by_cases h1 : ws.length ≤ k / WORD_BITS
      · rw [if_pos h1]
        exact Nat.two_pow_pos 64
      · rw [if_neg h1]
        by_cases h2 : ws.length - k / WORD_BITS = 1
        · rw [if_pos h2]
          exact hget _ (by omega)
        · rw [if_neg h2]
          exact bufferInto_WF _ (fun w hw => hall w (List.mem_of_mem_drop hw))
    · rw [if_neg hb]
      unfold shr_large_ref_words_bits
      by_cases h1 : ws.length ≤ k / WORD_BITS
      · rw [if_pos h1]
        exact Nat.two_pow_pos 64
      · rw [if_neg h1]
        by_cases h2 : ws.length - k / WORD_BITS = 1
        · rw [if_pos h2]
          exact shiftRight_lt_64 _ _ (hget _ (by omega))
        · rw [if_neg h2]
          by_cases h3 : ws.length - k / WORD_BITS = 2 ∧
              ws.getD (k / WORD_BITS + 1) 0 >>> (k % WORD_BITS) = 0
          · rw [if_pos h3]
            exact Nat.or_lt_two_pow (shiftRight_lt_64 _ _ (hget _ (by omega)))
              (Nat.mod_lt _ (Nat.two_pow_pos 64))
          · rw [if_neg h3]
            apply bufferInto_WF
            exact shrBitsChain_lt _ _ (fun w hw => hall w (List.mem_of_mem_drop hw))

theorem valWords_ge (ws : List Nat) (hne : ws ≠ [])
    (hlast : ws.getLast? ≠ some 0) :
    2 ^ (64 * (ws.length - 1)) ≤ valWords ws := by
  have hsplit : ws.dropLast ++ [ws.getLast hne] = ws :=
    List.dropLast_concat_getLast hne
  have hlast1 : 1 ≤ ws.getLast hne := by
    rcases Nat.eq_zero_or_pos (ws.getLast hne) with h0 | h1
    · exact absurd ((List.getLast?_eq_getLast ws hne).trans (by rw [h0])) hlast
    · exact h1
  have hval : valWords ws
      = valWords ws.dropLast + 2 ^ (64 * ws.dropLast.length) * ws.getLast hne := by
    conv_lhs => rw [← hsplit]
    rw [valWords_append]
    simp [valWords]
  have hdl : ws.dropLast.length = ws.length - 1 := List.length_dropLast ws
  calc 2 ^ (64 * (ws.length - 1))
      = 2 ^ (64 * (ws.length - 1)) * 1 := by ring
    _ ≤ 2 ^ (64 * (ws.length - 1)) * ws.getLast hne :=
        Nat.mul_le_mul_left _ hlast1
    _ ≤ valWords ws.dropLast + 2 ^ (64 * ws.dropLast.length) * ws.getLast hne := by
        rw [hdl]
        exact Nat.le_add_left _ _
    _ = valWords ws := hval.symm

theorem WF_val_eq_zero (a : UBig) (ha : a.WF) (hv : a.val = 0) :
    a = UBig.small 0 := by
  cases a with
  | small w =>
    show UBig.small w = UBig.small 0
    rw [show w = 0 from hv]
  | large ws =>
    obtain ⟨hlen, hall, hlast⟩ := ha
    exfalso
    have hne : ws ≠ [] := by
      intro h
      rw [h] at hlen
      simp at hlen
    have := valWords_ge ws hne hlast
    have hpos : 0 < 2 ^ (64 * (ws.length - 1)) := Nat.two_pow_pos _
    have : (0 : Nat) < valWords ws := lt_of_lt_of_le hpos this
    rw [show valWords ws = UBig.val (UBig.large ws) from rfl, hv] at this
    exact lt_irrefl 0 this

/-!
Claims C1, C4, C9, C10: the shift laws and shift error handling.
-/

/-- C1: for every unsigned value `a` (U) and every shift amount `k`, the left
shift `a << k` equals `a` multiplied by `2 ^ k` exactly, and the right shift
`a >> k` equals the floor of `a` divided by `2 ^ k`. -/
theorem claim_C1_shift_laws (a : UBig) (ha : a.WF) (k : Nat) :
    (shl_ref_usize a k).val = a.val * 2 ^ k ∧
    (shr_ref_usize a k).val = a.val / 2 ^ k :=
  ⟨shl_ref_usize_val a ha k, shr_ref_usize_val a ha k⟩

theorem claim_C1_shift_laws_witness :
    (shl_ref_usize (UBig.large [5, 7]) 67).val = (UBig.large [5, 7]).val * 2 ^ 67 ∧
    (shr_ref_usize (UBig.large [5, 7]) 67).val = (UBig.large [5, 7]).val / 2 ^ 67 :=
  claim_C1_shift_laws (UBig.large [5, 7]) (by decide) 67

/-- C4 as stated is false for the zero operand: left-shifting zero by an
amount that does not fit in `usize` is not fatal, because `shl_unsigned`
returns early on a zero receiver. -/
theorem claim_C4_counterexample :
    shl_unsigned (UBig.small 0) (2 ^ 64) = Except.ok (UBig.small 0) := by
  rfl

/-- C4 (amended: the fatal left-shift applies to a nonzero operand): shifting
right by an amount `k1` larger than the bit length yields zero; a shift count
`k2` that does not fit in `usize` yields zero for right shift, and for a
nonzero operand is fatal for left shift. -/
theorem claim_C4_shift_bounds (a : UBig) (ha : a.WF) (k1 k2 : Nat)
    (hk1 : Nat.size a.val < k1) (hk2 : usizeMax < k2) (hz : a.isZero = false) :
    shr_ref_usize a k1 = UBig.small 0 ∧
    shr_ref_unsigned a k2 = .ok (UBig.fromWord 0) ∧
    shl_unsigned a k2 = .error .tooLarge := by
  refine ⟨?_, ?_, ?_⟩
  · apply WF_val_eq_zero _ (shr_ref_usize_WF a ha k1)
    rw [shr_ref_usize_val a ha k1]
    apply Nat.div_eq_of_lt
    calc a.val < 2 ^ Nat.size a.val := Nat.lt_size_self _
      _ ≤ 2 ^ k1 := Nat.pow_le_pow_right (by norm_num) (by omega)
  · unfold shr_ref_unsigned
    rw [if_neg (by omega)]
  · unfold shl_unsigned
    rw [hz]
    have hnk : ¬ k2 ≤ usizeMax := by omega
    simp [hnk]

theorem claim_C4_shift_bounds_witness :
    shr_ref_usize (UBig.large [5, 7]) 200 = UBig.small 0 ∧
    shr_ref_unsigned (UBig.large [5, 7]) (2 ^ 64) = .ok (UBig.fromWord 0) ∧
    shl_unsigned (UBig.large [5, 7]) (2 ^ 64) = .error .tooLarge :=
  claim_C4_shift_bounds (UBig.large [5, 7]) (by decide) 200 (2 ^ 64)
    (lt_of_le_of_lt (Nat.size_le.mpr (by decide)) (by norm_num : (67 : Nat) < 200))
    (by decide) rfl

/-- C9: shifting a U (or the magnitude inside an S) left or right by a
negative amount, whether a negative primitive integer or a negative S, is
fatal with the negative-shift error. -/
theorem claim_C9_negative_shift (a : UBig) (k : Int) (hk : k < 0)
    (i : IBig) (hi : i.sign = .negative) :
    shl_signed a k = .error .negativeShift ∧
    shr_signed a k = .error .negativeShift ∧
    shl_ibig a i = .error .negativeShift ∧
    shr_ibig a i = .error .negativeShift := by
  unfold shl_signed shr_signed shl_ibig shr_ibig toSignMagnitude
  rw [if_pos hk, hi]
  exact ⟨rfl, rfl, rfl, rfl⟩

theorem claim_C9_negative_shift_witness :
    shl_signed (UBig.small 1) (-1) = .error .negativeShift ∧
    shr_signed (UBig.small 1) (-1) = .error .negativeShift ∧
    shl_ibig (UBig.small 1) ⟨.negative, UBig.small 1⟩ = .error .negativeShift ∧
    shr_ibig (UBig.small 1) ⟨.negative, UBig.small 1⟩ = .error .negativeShift :=
  claim_C9_negative_shift (UBig.small 1) (-1) (by norm_num)
    ⟨.negative, UBig.small 1⟩ rfl

/-- C10: left-shifting the zero U by any unsigned amount, including amounts
that do not fit in `usize`, returns zero and never panics, because the zero
check precedes the shift-count conversion. -/
theorem claim_C10_zero_shl (a : UBig) (h : a.isZero = true) (k : Nat) :
    shl_unsigned a k = .ok a ∧ shl_ref_unsigned a k = .ok (UBig.fromWord 0) := by
  unfold shl_unsigned shl_ref_unsigned
  rw [h]
  exact ⟨rfl, rfl⟩

theorem claim_C10_zero_shl_witness :
    shl_unsigned (UBig.small 0) (2 ^ 64) = .ok (UBig.small 0) ∧
    shl_ref_unsigned (UBig.small 0) (2 ^ 64) = .ok (UBig.fromWord 0) :=
  claim_C10_zero_shl (UBig.small 0) rfl (2 ^ 64)

/-!
Byte encoding and decoding facts, for claim C2.
-/

theorem bytesToNatLE_append (l1 l2 : List Nat) :
    bytesToNatLE (l1 ++ l2) = bytesToNatLE l1 + 256 ^ l1.length * bytesToNatLE l2 := by
  induction l1 with
  | nil => simp [bytesToNatLE]
  | cons b bs ih =>
    show b + 256 * bytesToNatLE (bs ++ l2)
      = b + 256 * bytesToNatLE bs + 256 ^ (bs.length + 1) * bytesToNatLE l2
    rw [ih, pow_succ]
    ring

theorem bytesToNatLE_wordLeBytes (w k : Nat) :
    bytesToNatLE (wordLeBytes w k) = w % 2 ^ (8 * k) := by
  induction k with
  | zero => simp [wordLeBytes, bytesToNatLE, Nat.mod_one]
  | succ m ih =>
    unfold wordLeBytes at ih ⊢
    rw [List.range_succ, List.map_append, bytesToNatLE_append, ih]
    simp only [List.map_cons, List.map_nil, List.length_map, List.length_range]
    have h256 : (256 : Nat) ^ m = 2 ^ (8 * m) := by
      rw [show (256 : Nat) = 2 ^ 8 from rfl, ← pow_mul]
    have hmm : w % 2 ^ (8 * (m + 1))
        = w % 2 ^ (8 * m) + 2 ^ (8 * m) * (w / 2 ^ (8 * m) % 2 ^ 8) := by
      rw [show 8 * (m + 1) = 8 * m + 8 from by ring, pow_add]
      exact Nat.mod_mul
    rw [hmm, h256]
    show w % 2 ^ (8 * m) + 2 ^ (8 * m) * ((w >>> (8 * m)) % 256 + 256 * bytesToNatLE []) = _
    simp [bytesToNatLE, Nat.shiftRight_eq_div_pow]

theorem trimmed_lt (x : Nat) (hx : x < 2 ^ 64) :
    x < 2 ^ (8 * (WORD_BYTES - skipBytes x)) := by
  have hs : Nat.size x ≤ 64 := Nat.size_le.mpr hx
  have hle : Nat.size x ≤ 8 * (WORD_BYTES - skipBytes x) := by
    unfold skipBytes leadingZeros WORD_BYTES WORD_BITS
    omega
  calc x < 2 ^ Nat.size x := Nat.lt_size_self x
    _ ≤ _ := Nat.pow_le_pow_right (by norm_num) hle

theorem wordTrim_val (x : Nat) (hx : x < 2 ^ 64) :
    bytesToNatLE (wordLeBytes x (WORD_BYTES - skipBytes x)) = x := by
  rw [bytesToNatLE_wordLeBytes, Nat.mod_eq_of_lt (trimmed_lt x hx)]

theorem wordLeBytes_length (w k : Nat) : (wordLeBytes w k).length = k := by
  unfold wordLeBytes
  rw [List.length_map, List.length_range]

theorem skipBytes_le_of_ne_zero (x : Nat) (hx0 : x ≠ 0) :
    1 ≤ WORD_BYTES - skipBytes x := by
  have hs0 : 0 < Nat.size x := Nat.size_pos.mpr (Nat.pos_of_ne_zero hx0)
  unfold skipBytes leadingZeros WORD_BYTES WORD_BITS
  omega

theorem wordTrim_last_ne_zero (x : Nat) (hx : x < 2 ^ 64) (hx0 : x ≠ 0) :
    (wordLeBytes x (WORD_BYTES - skipBytes x)).getLast? ≠ some 0 := by
  have hs0 : 0 < Nat.size x := Nat.size_pos.mpr (Nat.pos_of_ne_zero hx0)
  have hs64 : Nat.size x ≤ 64 := Nat.size_le.mpr hx
  have hk1 : 1 ≤ WORD_BYTES - skipBytes x := skipBytes_le_of_ne_zero x hx0
  have hsz : 8 * (WORD_BYTES - skipBytes x - 1) < Nat.size x := by
    unfold skipBytes leadingZeros WORD_BYTES WORD_BITS
    omega
  have hkk : WORD_BYTES - skipBytes x = (WORD_BYTES - skipBytes x - 1) + 1 := by omega
  unfold wordLeBytes
  rw [hkk, List.range_succ, List.map_append]
  simp only [List.map_cons, List.map_nil]
  rw [List.getLast?_concat]
  intro h
  simp only [Option.some.injEq] at h
  have hge : 2 ^ (8 * (WORD_BYTES - skipBytes x - 1)) ≤ x := by
    calc 2 ^ (8 * (WORD_BYTES - skipBytes x - 1)) ≤ 2 ^ (Nat.size x - 1) :=
          Nat.pow_le_pow_right (by norm_num) (by omega)
      _ ≤ x := Nat.lt_size.mp (by omega)
  have hdivpos : 0 < x >>> (8 * (WORD_BYTES - skipBytes x - 1)) := by
    rw [Nat.shiftRight_eq_div_pow]
    exact Nat.div_pos hge (Nat.two_pow_pos _)
  have hdivlt : x >>> (8 * (WORD_BYTES - skipBytes x - 1)) < 256 := by
    rw [Nat.shiftRight_eq_div_pow]
    apply Nat.div_lt_of_lt_mul
    calc x < 2 ^ (8 * (WORD_BYTES - skipBytes x)) := trimmed_lt x hx
      _ = 2 ^ (8 * (WORD_BYTES - skipBytes x - 1)) * 256 := by
          rw [show (256 : Nat) = 2 ^ 8 from rfl, ← pow_add]
          congr 1
          omega
  rw [Nat.mod_eq_of_lt hdivlt] at h
  omega

theorem from_le_bytes_words_chunk (w : Nat) (hw : w < 2 ^ 64) (rest : List Nat) :
    from_le_bytes_words (wordLeBytes w 8 ++ rest) = w :: from_le_bytes_words rest := by
  show from_le_bytes_words ((w >>> 0) % 256 :: (w >>> 8) % 256 :: (w >>> 16) % 256 ::
    (w >>> 24) % 256 :: (w >>> 32) % 256 :: (w >>> 40) % 256 :: (w >>> 48) % 256 ::
    (w >>> 56) % 256 :: rest) = w :: from_le_bytes_words rest
  rw [from_le_bytes_words]
  congr 1
  show bytesToNatLE (wordLeBytes w 8) = w
  rw [bytesToNatLE_wordLeBytes]
  exact Nat.mod_eq_of_lt hw

theorem from_le_bytes_words_small (bs : List Nat) (h1 : bs ≠ []) (h2 : bs.length < 8) :
    from_le_bytes_words bs = [bytesToNatLE bs] := by
  match bs, h2 with
  | [], _ => exact absurd rfl h1
  | [b0], _ => rfl
  | [b0, b1], _ => rfl
  | [b0, b1, b2], _ => rfl
  | [b0, b1, b2, b3], _ => rfl
  | [b0, b1, b2, b3, b4], _ => rfl
  | [b0, b1, b2, b3, b4, b5], _ => rfl
  | [b0, b1, b2, b3, b4, b5, b6], _ => rfl
  | b0 :: b1 :: b2 :: b3 :: b4 :: b5 :: b6 :: b7 :: rest, h2 =>
    exfalso
    simp only [List.length_cons] at h2
    omega

theorem from_le_bytes_words_flatten (l : List Nat) (T : List Nat)
    (hall : ∀ w ∈ l, w < 2 ^ 64) :
    from_le_bytes_words ((l.map (fun w => wordLeBytes w WORD_BYTES)).flatten ++ T)
      = l ++ from_le_bytes_words T := by
  induction l with
  | nil => simp
  | cons w ls ih =>
    simp only [List.map_cons, List.flatten_cons, List.append_assoc]
    rw [show wordLeBytes w WORD_BYTES = wordLeBytes w 8 from rfl,
      from_le_bytes_words_chunk w (hall w (by simp)) _,
      ih (fun y hy => hall y (by simp [hy]))]
    rfl

theorem bufferInto_canonical (ws : List Nat) (hlen : 2 ≤ ws.length)
    (hlast : ws.getLast? ≠ some 0) : bufferInto ws = UBig.large ws := by
  have hpop : popLeadingZeros ws = ws := by
    unfold popLeadingZeros
    have hdw : ws.reverse.dropWhile (· = 0) = ws.reverse := by
      cases hrev : ws.reverse with
      | nil => rfl
      | cons a t =>
        apply List.dropWhile_cons_of_neg
        have ha : ws.getLast? = some a := by
          rw [← List.head?_reverse, hrev]
          rfl
        have : a ≠ 0 := by
          intro h0
          exact hlast (by rw [ha, h0])
        simp [this]
    rw [hdw, List.reverse_reverse]
  unfold bufferInto
  rw [hpop]
  rcases ws with _ | ⟨w0, _ | ⟨w1, rest⟩⟩
  · simp at hlen
  · simp at hlen
  · rfl

theorem from_to_le (u : UBig) (hu : u.WF) : from_le_bytes (to_le_bytes u) = u := by
  cases u with
  | small x =>
    have hx : x < 2 ^ 64 := hu
    show from_le_bytes (wordLeBytes x (WORD_BYTES - skipBytes x)) = UBig.small x
    unfold from_le_bytes
    rw [if_pos (by rw [wordLeBytes_length]; unfold WORD_BYTES; omega)]
    show UBig.small (bytesToNatLE (wordLeBytes x (WORD_BYTES - skipBytes x)))
      = UBig.small x
    rw [wordTrim_val x hx]
  | large ws =>
    obtain ⟨hlen, hall, hlast⟩ := hu
    have hne : ws ≠ [] := by
      intro h
      rw [h] at hlen
      simp at hlen
    have hxlast : ws.getLast hne < 2 ^ 64 := hall _ (List.getLast_mem hne)
    have hlast0 : ws.getLast hne ≠ 0 := by
      intro h
      exact hlast (by rw [List.getLast?_eq_getLast ws hne, h])
    have hgd : ws.getLast?.getD 0 = ws.getLast hne := by
      rw [List.getLast?_eq_getLast ws hne]
      rfl
    have hsplit : ws.dropLast ++ [ws.getLast hne] = ws :=
      List.dropLast_concat_getLast hne
    show from_le_bytes ((ws.dropLast.map fun w => wordLeBytes w WORD_BYTES).flatten ++
      wordLeBytes (ws.getLast?.getD 0)
        (WORD_BYTES - skipBytes (ws.getLast?.getD 0))) = UBig.large ws
    rw [hgd]
    have hk1 : 1 ≤ WORD_BYTES - skipBytes (ws.getLast hne) :=
      skipBytes_le_of_ne_zero _ hlast0
    have hdllen : 1 ≤ ws.dropLast.length := by
      rw [List.length_dropLast]
      omega
    have hAlen : 8 ≤ ((ws.dropLast.map fun w => wordLeBytes w WORD_BYTES).flatten).length := by
      rcases hdl : ws.dropLast with _ | ⟨y, t⟩
      · rw [hdl] at hdllen
        simp at hdllen
      · simp only [List.map_cons, List.flatten_cons, List.length_append,
          wordLeBytes_length]
        show 8 ≤ WORD_BYTES + _
        unfold WORD_BYTES
        omega
    unfold from_le_bytes
    rw [if_neg (by
      rw [List.length_append, wordLeBytes_length]
      have hwb : WORD_BYTES = 8 := rfl
      omega)]
    have hTwords : from_le_bytes_words
        (wordLeBytes (ws.getLast hne)
          (WORD_BYTES - skipBytes (ws.getLast hne))) = [ws.getLast hne] := by
      by_cases hk8 : WORD_BYTES - skipBytes (ws.getLast hne) = 8
      · rw [hk8]
        have := from_le_bytes_words_chunk (ws.getLast hne) hxlast []
        rw [List.append_nil] at this
        rw [this]
        rfl
      · rw [from_le_bytes_words_small _
          (List.ne_nil_of_length_pos (by rw [wordLeBytes_length]; omega))
          (by rw [wordLeBytes_length]; unfold WORD_BYTES at hk8 ⊢; omega)]
        rw [wordTrim_val _ hxlast]
    rw [from_le_bytes_words_flatten _ _
      (fun y hy => hall y ((List.dropLast_sublist ws).mem hy)), hTwords, hsplit]
    exact bufferInto_canonical ws hlen hlast

theorem to_be_eq_reverse (u : UBig) : to_be_bytes u = (to_le_bytes u).reverse := by
  cases u with
  | small x => rfl
  | large ws =>
    show (wordLeBytes (ws.getLast?.getD 0)
        (WORD_BYTES - skipBytes (ws.getLast?.getD 0))).reverse ++
      (ws.dropLast.reverse.map fun w => (wordLeBytes w WORD_BYTES).reverse).flatten
      = ((ws.dropLast.map fun w => wordLeBytes w WORD_BYTES).flatten ++
        wordLeBytes (ws.getLast?.getD 0)
          (WORD_BYTES - skipBytes (ws.getLast?.getD 0))).reverse
    rw [List.reverse_append, List.reverse_flatten, List.map_map, ← List.map_reverse]
    rfl

theorem from_be_eq (bs : List Nat) : from_be_bytes bs = from_le_bytes bs.reverse := by
  unfold from_be_bytes from_le_bytes word_from_be_bytes_part word_from_le_bytes_part
  rw [List.length_reverse]

theorem to_le_last_ne_zero (u : UBig) (hu : u.WF) (h0 : u.val ≠ 0) :
    (to_le_bytes u).getLast? ≠ some 0 := by
  cases u with
  | small x =>
    exact wordTrim_last_ne_zero x hu h0
  | large ws =>
    obtain ⟨hlen, hall, hlast⟩ := hu
    have hne : ws ≠ [] := by
      intro h
      rw [h] at hlen
      simp at hlen
    have hxlast : ws.getLast hne < 2 ^ 64 := hall _ (List.getLast_mem hne)
    have hlast0 : ws.getLast hne ≠ 0 := by
      intro h
      exact hlast (by rw [List.getLast?_eq_getLast ws hne, h])
    have hgd : ws.getLast?.getD 0 = ws.getLast hne := by
      rw [List.getLast?_eq_getLast ws hne]
      rfl
    show ((ws.dropLast.map fun w => wordLeBytes w WORD_BYTES).flatten ++
      wordLeBytes (ws.getLast?.getD 0)
        (WORD_BYTES - skipBytes (ws.getLast?.getD 0))).getLast? ≠ some 0
    rw [List.getLast?_append, hgd]
    have hk1 : 1 ≤ WORD_BYTES - skipBytes (ws.getLast hne) :=
      skipBytes_le_of_ne_zero _ hlast0
    have hTne : wordLeBytes (ws.getLast hne)
        (WORD_BYTES - skipBytes (ws.getLast hne)) ≠ [] :=
      List.ne_nil_of_length_pos (by rw [wordLeBytes_length]; omega)
    have hTlast := wordTrim_last_ne_zero (ws.getLast hne) hxlast hlast0
    rw [List.getLast?_eq_getLast _ hTne] at hTlast ⊢
    rw [Option.or_some]
    exact hTlast

theorem to_le_zero : to_le_bytes (UBig.small 0) = [] := by
  show wordLeBytes 0 (WORD_BYTES - skipBytes 0) = []
  have h : skipBytes 0 = 8 := by
    unfold skipBytes leadingZeros WORD_BITS
    rw [Nat.size_zero]
  rw [h]
  rfl

/-- C2: for every unsigned value `u` (U), `from_le_bytes (to_le_bytes u) = u`
and `from_be_bytes (to_be_bytes u) = u`; `to_le_bytes` and `to_be_bytes` emit
the minimum number of bytes (no leading zero byte for a nonzero value), and
for the zero U both emit the empty byte sequence. -/
theorem claim_C2_byte_roundtrip (u : UBig) (hu : u.WF) :
    from_le_bytes (to_le_bytes u) = u ∧
    from_be_bytes (to_be_bytes u) = u ∧
    (u.val ≠ 0 → (to_le_bytes u).getLast? ≠ some 0 ∧
      (to_be_bytes u).head? ≠ some 0) ∧
    to_le_bytes (UBig.small 0) = [] ∧
    to_be_bytes (UBig.small 0) = [] := by
  refine ⟨from_to_le u hu, ?_, ?_, to_le_zero, ?_⟩
  · rw [to_be_eq_reverse, from_be_eq, List.reverse_reverse]
    exact from_to_le u hu
  · intro h0
    refine ⟨to_le_last_ne_zero u hu h0, ?_⟩
    rw [to_be_eq_reverse, List.head?_reverse]
    exact to_le_last_ne_zero u hu h0
  · rw [to_be_eq_reverse, to_le_zero]
    rfl

theorem claim_C2_byte_roundtrip_witness :
    from_le_bytes (to_le_bytes (UBig.large [260, 3])) = UBig.large [260, 3] ∧
    from_be_bytes (to_be_bytes (UBig.large [260, 3])) = UBig.large [260, 3] ∧
    ((UBig.large [260, 3]).val ≠ 0 →
      (to_le_bytes (UBig.large [260, 3])).getLast? ≠ some 0 ∧
      (to_be_bytes (UBig.large [260, 3])).head? ≠ some 0) ∧
    to_le_bytes (UBig.small 0) = [] ∧
    to_be_bytes (UBig.small 0) = [] :=
  claim_C2_byte_roundtrip (UBig.large [260, 3]) (by decide)

/-!
Machine-integer conversions, for claim C7.
-/

theorem valWords_from_le_bytes_words : ∀ bs : List Nat,
    valWords (from_le_bytes_words bs) = bytesToNatLE bs
  | [] => rfl
  | [b0] => by
    show bytesToNatLE [b0] + 2 ^ 64 * 0 = bytesToNatLE [b0]
    omega
  | [b0, b1] => by
    show bytesToNatLE [b0, b1] + 2 ^ 64 * 0 = bytesToNatLE [b0, b1]
    omega
  | [b0, b1, b2] => by
    show bytesToNatLE [b0, b1, b2] + 2 ^ 64 * 0 = bytesToNatLE [b0, b1, b2]
    omega
  | [b0, b1, b2, b3] => by
    show bytesToNatLE [b0, b1, b2, b3] + 2 ^ 64 * 0 = bytesToNatLE [b0, b1, b2, b3]
    omega
  | [b0, b1, b2, b3, b4] => by
    show bytesToNatLE [b0, b1, b2, b3, b4] + 2 ^ 64 * 0
      = bytesToNatLE [b0, b1, b2, b3, b4]
    omega
  | [b0, b1, b2, b3, b4, b5] => by
    show bytesToNatLE [b0, b1, b2, b3, b4, b5] + 2 ^ 64 * 0
      = bytesToNatLE [b0, b1, b2, b3, b4, b5]
    omega
  | [b0, b1, b2, b3, b4, b5, b6] => by
    show bytesToNatLE [b0, b1, b2, b3, b4, b5, b6] + 2 ^ 64 * 0
      = bytesToNatLE [b0, b1, b2, b3, b4, b5, b6]
    omega
  | b0 :: b1 :: b2 :: b3 :: b4 :: b5 :: b6 :: b7 :: rest => by
    have ih := valWords_from_le_bytes_words rest
    show bytesToNatLE [b0, b1, b2, b3, b4, b5, b6, b7] +
      2 ^ 64 * valWords (from_le_bytes_words rest)
      = bytesToNatLE (b0 :: b1 :: b2 :: b3 :: b4 :: b5 :: b6 :: b7 :: rest)
    rw [ih, show (b0 :: b1 :: b2 :: b3 :: b4 :: b5 :: b6 :: b7 :: rest)
      = [b0, b1, b2, b3, b4, b5, b6, b7] ++ rest from rfl, bytesToNatLE_append]
    norm_num

theorem from_le_bytes_val (bs : List Nat) :
    (from_le_bytes bs).val = bytesToNatLE bs := by
  unfold from_le_bytes
  by_cases h : bs.length ≤ WORD_BYTES
  · rw [if_pos h]
    rfl
  · rw [if_neg h, bufferInto_val, valWords_from_le_bytes_words]

theorem ubig_from_unsigned_val (v : Nat) (hv : v < 2 ^ 128) :
    (ubig_from_unsigned v).val = v := by
  unfold ubig_from_unsigned
  by_cases h64 : v < 2 ^ 64
  · rw [if_pos h64]
    rfl
  · rw [if_neg h64,
      show u128LeBytes v = wordLeBytes v 16 from rfl, from_le_bytes_val,
      bytesToNatLE_wordLeBytes]
    exact Nat.mod_eq_of_lt hv

theorem unsigned_from_ubig_eq (bits : Nat)
    (hbits : bits = 8 ∨ bits = 16 ∨ bits = 32 ∨ bits = 64 ∨ bits = 128)
    (u : UBig) (hu : u.WF) :
    unsigned_from_ubig bits u = if u.val < 2 ^ bits then some u.val else none := by
  cases u with
  | small w => rfl
  | large ws =>
    obtain ⟨hlen, hall, hlast⟩ := hu
    have hne : ws ≠ [] := by
      intro h
      rw [h] at hlen
      simp at hlen
    have hge : 2 ^ (64 * (ws.length - 1)) ≤ valWords ws := valWords_ge ws hne hlast
    have hlt : valWords ws < 2 ^ (64 * ws.length) := valWords_lt ws hall
    have hbig : 2 ^ 64 ≤ valWords ws :=
      le_trans (Nat.pow_le_pow_right (by norm_num) (by omega)) hge
    show unsigned_from_words bits ws
      = if valWords ws < 2 ^ bits then some (valWords ws) else none
    unfold unsigned_from_words
    rcases hbits with h | h | h | h | h <;> subst h
    · have hc : ¬ valWords ws < 2 ^ 8 := by
        have h8 : (2:Nat) ^ 8 ≤ 2 ^ 64 := by norm_num
        omega
      rw [if_pos (Or.inl (by decide)), if_neg hc]
    · have hc : ¬ valWords ws < 2 ^ 16 := by
        have h16 : (2:Nat) ^ 16 ≤ 2 ^ 64 := by norm_num
        omega
      rw [if_pos (Or.inl (by decide)), if_neg hc]
    · have hc : ¬ valWords ws < 2 ^ 32 := by
        have h32 : (2:Nat) ^ 32 ≤ 2 ^ 64 := by norm_num
        omega
      rw [if_pos (Or.inl (by decide)), if_neg hc]
    · have hc : ¬ valWords ws < 2 ^ 64 := by omega
      rw [if_pos (Or.inl (by decide)), if_neg hc]
    · show (if 128 / 8 / WORD_BYTES ≤ 1 ∨ ws.length > 128 / 8 / WORD_BYTES then none
        else some (valWords ws)) = _
      rw [show (128 / 8 / WORD_BYTES : Nat) = 2 from rfl]
      by_cases hl : ws.length > 2
      · have h128 : 2 ^ 128 ≤ valWords ws :=
          le_trans (Nat.pow_le_pow_right (by norm_num) (by omega)) hge
        have hc : ¬ valWords ws < 2 ^ 128 := by omega
        rw [if_pos (Or.inr hl), if_neg hc]
      · have hv128 : valWords ws < 2 ^ 128 :=
          lt_of_lt_of_le hlt (Nat.pow_le_pow_right (by norm_num) (by omega))
        rw [if_neg (by push_neg; exact ⟨by norm_num, by omega⟩), if_pos hv128]

theorem signed_from_ubig_eq (bits : Nat)
    (hbits : bits = 8 ∨ bits = 16 ∨ bits = 32 ∨ bits = 64 ∨ bits = 128)
    (u : UBig) (hu : u.WF) :
    signed_from_ubig bits u = if u.val < 2 ^ (bits - 1) then some u.val else none := by
  cases u with
  | small w => rfl
  | large ws =>
    obtain ⟨hlen, hall, hlast⟩ := hu
    have hne : ws ≠ [] := by
      intro h
      rw [h] at hlen
      simp at hlen
    have hge : 2 ^ (64 * (ws.length - 1)) ≤ valWords ws := valWords_ge ws hne hlast
    have hlt : valWords ws < 2 ^ (64 * ws.length) := valWords_lt ws hall
    have hbig : 2 ^ 64 ≤ valWords ws :=
      le_trans (Nat.pow_le_pow_right (by norm_num) (by omega)) hge
    show (match unsigned_from_words bits ws with
      | none => none
      | some v => if v < 2 ^ (bits - 1) then some v else none)
      = if valWords ws < 2 ^ (bits - 1) then some (valWords ws) else none
    unfold unsigned_from_words
    rcases hbits with h | h | h | h | h <;> subst h
    · have hc : ¬ valWords ws < 2 ^ (8 - 1) := by
        have h7 : (2:Nat) ^ (8 - 1) ≤ 2 ^ 64 := by norm_num
        omega
      rw [if_pos (Or.inl (by decide)), if_neg hc]
    · have hc : ¬ valWords ws < 2 ^ (16 - 1) := by
        have h15 : (2:Nat) ^ (16 - 1) ≤ 2 ^ 64 := by norm_num
        omega
      rw [if_pos (Or.inl (by decide)), if_neg hc]
    · have hc : ¬ valWords ws < 2 ^ (32 - 1) := by
        have h31 : (2:Nat) ^ (32 - 1) ≤ 2 ^ 64 := by norm_num
        omega
      rw [if_pos (Or.inl (by decide)), if_neg hc]
    · have hc : ¬ valWords ws < 2 ^ (64 - 1) := by
        have h63 : (2:Nat) ^ (64 - 1) ≤ 2 ^ 64 := by norm_num
        omega
      rw [if_pos (Or.inl (by decide)), if_neg hc]
    · rw [show (128 / 8 / WORD_BYTES : Nat) = 2 from rfl]
      by_cases hl : ws.length > 2
      · have h128 : 2 ^ 128 ≤ valWords ws :=
          le_trans (Nat.pow_le_pow_right (by norm_num) (by omega)) hge
        have hc : ¬ valWords ws < 2 ^ (128 - 1) := by
          have h127 : (2:Nat) ^ (128 - 1) ≤ 2 ^ 128 := by norm_num
          omega
        rw [if_pos (Or.inr hl), if_neg hc]
      · rw [if_neg (by push_neg; exact ⟨by norm_num, by omega⟩)]

/-- C7: converting a U to a machine integer is checked: when the value does
not fit in the target the conversion fails with `OutOfRange` (never saturating
or truncating), and when it fits it returns exactly the value; converting a
negative signed primitive into a U fails, and a non-negative one converts
exactly. -/
theorem claim_C7_checked_conversions (bits : Nat)
    (hbits : bits = 8 ∨ bits = 16 ∨ bits = 32 ∨ bits = 64 ∨ bits = 128)
    (u : UBig) (hu : u.WF) (x : Int) (hx : x.toNat < 2 ^ 128) :
    unsigned_from_ubig bits u = (if u.val < 2 ^ bits then some u.val else none) ∧
    signed_from_ubig bits u = (if u.val < 2 ^ (bits - 1) then some u.val else none) ∧
    (x < 0 → ubig_from_signed x = none) ∧
    (0 ≤ x → ubig_from_signed x = some (ubig_from_unsigned x.toNat) ∧
      (ubig_from_unsigned x.toNat).val = x.toNat) := by
  refine ⟨unsigned_from_ubig_eq bits hbits u hu, signed_from_ubig_eq bits hbits u hu,
    ?_, ?_⟩
  · intro hneg
    unfold ubig_from_signed
    rw [if_pos hneg]
  · intro hpos
    unfold ubig_from_signed
    rw [if_neg (by omega)]
    exact ⟨rfl, ubig_from_unsigned_val _ hx⟩

theorem claim_C7_checked_conversions_witness :
    (unsigned_from_ubig 64 (UBig.large [1, 1])
      = (if (UBig.large [1, 1]).val < 2 ^ 64 then some (UBig.large [1, 1]).val else none)) ∧
    (signed_from_ubig 64 (UBig.large [1, 1])
      = (if (UBig.large [1, 1]).val < 2 ^ (64 - 1) then some (UBig.large [1, 1]).val
        else none)) ∧
    ((-5 : Int) < 0 → ubig_from_signed (-5) = none) ∧
    (0 ≤ (-5 : Int) → ubig_from_signed (-5) = some (ubig_from_unsigned (-5 : Int).toNat) ∧
      (ubig_from_unsigned (-5 : Int).toNat).val = (-5 : Int).toNat) :=
  claim_C7_checked_conversions 64 (by norm_num) (UBig.large [1, 1]) (by decide)
    (-5) (by decide)

/-!
Modular ring facts, for claims C3, C5 and C6.
-/

theorem mkRingSmall_nm (m : Nat) :
    (mkRingSmall m).normalized_modulus = m * 2 ^ (mkRingSmall m).shift :=
  Nat.shiftLeft_eq m _

theorem mkRingLarge_nm (M : Nat) :
    (mkRingLarge M).normalized_modulus = M * 2 ^ (mkRingLarge M).shift :=
  Nat.shiftLeft_eq M _

theorem size_le_wordCount (M : Nat) : Nat.size M ≤ 64 * wordCount M := by
  unfold wordCount
  omega

theorem mkRingLarge_nm_lt (M : Nat) :
    (mkRingLarge M).normalized_modulus < 2 ^ (64 * (mkRingLarge M).wordLen) := by
  show M <<< (64 * wordCount M - Nat.size M) < 2 ^ (64 * wordCount M)
  rw [Nat.shiftLeft_eq]
  calc M * 2 ^ (64 * wordCount M - Nat.size M)
      < 2 ^ Nat.size M * 2 ^ (64 * wordCount M - Nat.size M) :=
        (Nat.mul_lt_mul_right (Nat.two_pow_pos _)).mpr (Nat.lt_size_self M)
    _ = 2 ^ (Nat.size M + (64 * wordCount M - Nat.size M)) := by rw [pow_add]
    _ ≤ 2 ^ (64 * wordCount M) :=
        Nat.pow_le_pow_right (by norm_num)
          (by have := size_le_wordCount M; omega)

theorem valWords_natToWordsFixed (n v : Nat) :
    valWords (natToWordsFixed n v) = v % 2 ^ (64 * n) := by
  induction n with
  | zero => simp [natToWordsFixed, valWords, Nat.mod_one]
  | succ m ih =>
    unfold natToWordsFixed at ih ⊢
    rw [List.range_succ, List.map_append, valWords_append, ih]
    simp only [List.map_cons, List.map_nil, List.length_map, List.length_range]
    have hmm : v % 2 ^ (64 * (m + 1))
        = v % 2 ^ (64 * m) + 2 ^ (64 * m) * (v / 2 ^ (64 * m) % 2 ^ 64) := by
      rw [show 64 * (m + 1) = 64 * m + 64 from by ring, pow_add]
      exact Nat.mod_mul
    rw [hmm]
    show v % 2 ^ (64 * m) + 2 ^ (64 * m) * ((v >>> (64 * m)) % 2 ^ 64 + 2 ^ 64 * 0) = _
    simp [Nat.shiftRight_eq_div_pow]

theorem natToWordsFixed_length (n v : Nat) : (natToWordsFixed n v).length = n := by
  unfold natToWordsFixed
  rw [List.length_map, List.length_range]

theorem smallFromUBig_val (m : Nat) (u : UBig) :
    smallFromUBig (mkRingSmall m) u
      = (u.val % m) * 2 ^ (mkRingSmall m).shift := by
  have hnm := mkRingSmall_nm m
  cases u with
  | small w =>
    show normalize_word (mkRingSmall m) w = (w % m) * 2 ^ (mkRingSmall m).shift
    unfold normalize_word
    by_cases hs : (mkRingSmall m).shift = 0
    · rw [if_pos hs, hs, hnm, hs]
      simp
    · rw [if_neg hs, hnm, Nat.shiftLeft_eq, Nat.mul_mod_mul_right]
  | large ws =>
    show normalize_large (mkRingSmall m) ws = (valWords ws % m) * 2 ^ (mkRingSmall m).shift
    unfold normalize_large
    by_cases hs : (mkRingSmall m).shift = 0
    · rw [if_pos hs, hs, pow_zero, Nat.mul_one, hnm, hs, pow_zero, Nat.mul_one]
    · rw [if_neg hs, hnm, Nat.shiftLeft_eq, Nat.mul_mod_mul_right,
        Nat.mod_mod_of_dvd _ (dvd_mul_right m _)]

theorem mul_pow_shiftRight (c s : Nat) : (c * 2 ^ s) >>> s = c := by
  rw [Nat.shiftRight_eq_div_pow]
  exact Nat.mul_div_cancel _ (Nat.two_pow_pos s)

theorem wordCount_pos (M : Nat) (hM : 0 < M) : 1 ≤ wordCount M := by
  have : 0 < Nat.size M := Nat.size_pos.mpr hM
  unfold wordCount
  omega

theorem mkRingLarge_nm_ge (M : Nat) (hM : 0 < M) :
    2 ^ (64 * (mkRingLarge M).wordLen - 1) ≤ (mkRingLarge M).normalized_modulus := by
  have hM0 : M ≠ 0 := Nat.pos_iff_ne_zero.mp hM
  have hsz : Nat.size ((mkRingLarge M).normalized_modulus)
      = 64 * wordCount M := by
    show Nat.size (M <<< (64 * wordCount M - Nat.size M)) = _
    rw [Nat.size_shiftLeft hM0]
    have := size_le_wordCount M
    omega
  have hwc := wordCount_pos M hM
  exact Nat.lt_size.mp (by
    rw [hsz]
    show 64 * wordCount M - 1 < 64 * wordCount M
    omega)

theorem mkRingLarge_nm_pos (M : Nat) (hM : 0 < M) :
    0 < (mkRingLarge M).normalized_modulus := by
  rw [mkRingLarge_nm]
  exact Nat.mul_pos hM (Nat.two_pow_pos _)

theorem largeFromUBig_val (M : Nat) (hM : 0 < M) (x : Nat) :
    valWords (largeFromUBig (mkRingLarge M) x)
      = (x * 2 ^ (mkRingLarge M).shift) % (mkRingLarge M).normalized_modulus := by
  have hnm0 : 0 < (mkRingLarge M).normalized_modulus := mkRingLarge_nm_pos M hM
  have hnmlt : (mkRingLarge M).normalized_modulus
      < 2 ^ (64 * (mkRingLarge M).wordLen) := mkRingLarge_nm_lt M
  have hwc := wordCount_pos M hM
  unfold largeFromUBig
  by_cases hc : wordCount (x <<< (mkRingLarge M).shift) < (mkRingLarge M).wordLen
  · rw [if_pos hc]
    have hsmall : x <<< (mkRingLarge M).shift
        < 2 ^ (64 * ((mkRingLarge M).wordLen - 1)) := by
      have hsz : Nat.size (x <<< (mkRingLarge M).shift)
          ≤ 64 * ((mkRingLarge M).wordLen - 1) := by
        have hc2 : wordCount (x <<< (mkRingLarge M).shift) < wordCount M := hc
        unfold wordCount at hc2
        show Nat.size (x <<< (mkRingLarge M).shift) ≤ 64 * (wordCount M - 1)
        unfold wordCount
        omega
      calc x <<< (mkRingLarge M).shift
          < 2 ^ Nat.size (x <<< (mkRingLarge M).shift) := Nat.lt_size_self _
        _ ≤ _ := Nat.pow_le_pow_right (by norm_num) hsz
    have hlt_nm : x <<< (mkRingLarge M).shift < (mkRingLarge M).normalized_modulus := by
      apply lt_of_lt_of_le hsmall
      apply le_trans _ (mkRingLarge_nm_ge M hM)
      apply Nat.pow_le_pow_right (by norm_num)
      show 64 * (wordCount M - 1) ≤ 64 * wordCount M - 1
      omega
    rw [valWords_natToWordsFixed,
      Nat.mod_eq_of_lt (lt_trans hlt_nm hnmlt),
      Nat.mod_eq_of_lt (by rw [← Nat.shiftLeft_eq]; exact hlt_nm), Nat.shiftLeft_eq]
  · rw [if_neg hc, valWords_natToWordsFixed,
      Nat.mod_eq_of_lt (lt_trans (Nat.mod_lt _ hnm0) hnmlt), Nat.shiftLeft_eq]

/-- C3: for every ring with modulus `m` and all values `a`, `b`,
`residue(R.from(a) * R.from(b)) = (a * b) mod m`, both in the single-word
representation (`2 ≤ m < 2 ^ 64`) and in the multi-word representation
(`2 ^ 64 ≤ M`). -/
theorem claim_C3_modular_mul_hom
    (m : Nat) (hm2 : 2 ≤ m) (hm : m < 2 ^ 64) (ux uy : UBig)
    (M : Nat) (hM : 2 ^ 64 ≤ M) (x y : Nat) :
    smallResidue (mkRingSmall m)
      (smallMulNormalized (mkRingSmall m) (smallFromUBig (mkRingSmall m) ux)
        (smallFromUBig (mkRingSmall m) uy)) = (ux.val * uy.val) % m ∧
    largeResidue (mkRingLarge M)
      (mul_normalized_values (mkRingLarge M) (largeFromUBig (mkRingLarge M) x)
        (largeFromUBig (mkRingLarge M) y)) = (x * y) % M := by
  constructor
  · have hnm := mkRingSmall_nm m
    rw [smallFromUBig_val m ux, smallFromUBig_val m uy]
    unfold smallMulNormalized smallResidue
    rw [mul_pow_shiftRight, hnm, ← Nat.mul_assoc, Nat.mul_mod_mul_right,
      ← Nat.mul_mod, mul_pow_shiftRight]
  · have hM0 : 0 < M := lt_of_lt_of_le (Nat.two_pow_pos 64) hM
    have hnm := mkRingLarge_nm M
    have hnm0 : 0 < (mkRingLarge M).normalized_modulus := mkRingLarge_nm_pos M hM0
    have hnmlt : (mkRingLarge M).normalized_modulus
        < 2 ^ (64 * (mkRingLarge M).wordLen) := mkRingLarge_nm_lt M
    unfold mul_normalized_values largeResidue
    rw [largeFromUBig_val M hM0 x, largeFromUBig_val M hM0 y, hnm]
    rw [Nat.mul_mod_mul_right, Nat.mul_mod_mul_right]
    rw [show x % M * 2 ^ (mkRingLarge M).shift * (y % M * 2 ^ (mkRingLarge M).shift)
      = x % M * (y % M) * 2 ^ (mkRingLarge M).shift * 2 ^ (mkRingLarge M).shift
      from by ring]
    rw [mul_pow_shiftRight, Nat.mul_mod_mul_right, ← Nat.mul_mod]
    rw [valWords_natToWordsFixed]
    have hlt : x * y % M * 2 ^ (mkRingLarge M).shift
        < 2 ^ (64 * (mkRingLarge M).wordLen) := by
      calc x * y % M * 2 ^ (mkRingLarge M).shift
          < M * 2 ^ (mkRingLarge M).shift :=
            (Nat.mul_lt_mul_right (Nat.two_pow_pos _)).mpr (Nat.mod_lt _ hM0)
        _ = (mkRingLarge M).normalized_modulus := hnm.symm
        _ < _ := hnmlt
    rw [Nat.mod_eq_of_lt hlt, mul_pow_shiftRight]

theorem claim_C3_modular_mul_hom_witness :
    smallResidue (mkRingSmall 10000)
      (smallMulNormalized (mkRingSmall 10000)
        (smallFromUBig (mkRingSmall 10000) (UBig.small 12345))
        (smallFromUBig (mkRingSmall 10000) (UBig.small 55443)))
      = ((UBig.small 12345).val * (UBig.small 55443).val) % 10000 ∧
    largeResidue (mkRingLarge (2 ^ 64 + 13))
      (mul_normalized_values (mkRingLarge (2 ^ 64 + 13))
        (largeFromUBig (mkRingLarge (2 ^ 64 + 13)) 7)
        (largeFromUBig (mkRingLarge (2 ^ 64 + 13)) 9)) = (7 * 9) % (2 ^ 64 + 13) :=
  claim_C3_modular_mul_hom 10000 (by norm_num) (by norm_num)
    (UBig.small 12345) (UBig.small 55443) (2 ^ 64 + 13) (by norm_num) 7 9

/-- C5: every ring element reachable through `from` and multiplication stores
the value left-shifted by the ring shift and reduced mod the normalized
modulus (that is, a multiple of `2 ^ shift` below the normalized modulus); in
the multi-word ring the stored vector is exactly `len(m')` words; consequently
`residue()` returns a value in `0..modulus`. -/
theorem claim_C5_normalized_invariant
    (m : Nat) (hm2 : 2 ≤ m) (hm : m < 2 ^ 64) (u : UBig)
    (a b : Nat)
    (ha : a < (mkRingSmall m).normalized_modulus ∧
      a % 2 ^ (mkRingSmall m).shift = 0)
    (hb : b < (mkRingSmall m).normalized_modulus ∧
      b % 2 ^ (mkRingSmall m).shift = 0)
    (M : Nat) (hM : 2 ^ 64 ≤ M) (x : Nat) (av bv : List Nat)
    (hav : valWords av < (mkRingLarge M).normalized_modulus ∧
      valWords av % 2 ^ (mkRingLarge M).shift = 0)
    (hbv : valWords bv < (mkRingLarge M).normalized_modulus ∧
      valWords bv % 2 ^ (mkRingLarge M).shift = 0) :
    (smallFromUBig (mkRingSmall m) u < (mkRingSmall m).normalized_modulus ∧
      smallFromUBig (mkRingSmall m) u % 2 ^ (mkRingSmall m).shift = 0) ∧
    (smallMulNormalized (mkRingSmall m) a b < (mkRingSmall m).normalized_modulus ∧
      smallMulNormalized (mkRingSmall m) a b % 2 ^ (mkRingSmall m).shift = 0) ∧
    smallResidue (mkRingSmall m) a < m ∧
    ((largeFromUBig (mkRingLarge M) x).length = (mkRingLarge M).wordLen ∧
      valWords (largeFromUBig (mkRingLarge M) x)
        < (mkRingLarge M).normalized_modulus ∧
      valWords (largeFromUBig (mkRingLarge M) x)
        % 2 ^ (mkRingLarge M).shift = 0) ∧
    ((mul_normalized_values (mkRingLarge M) av bv).length = (mkRingLarge M).wordLen ∧
      valWords (mul_normalized_values (mkRingLarge M) av bv)
        < (mkRingLarge M).normalized_modulus ∧
      valWords (mul_normalized_values (mkRingLarge M) av bv)
        % 2 ^ (mkRingLarge M).shift = 0) ∧
    largeResidue (mkRingLarge M) av < M := by
  have hm0 : 0 < m := by omega
  have hsnm := mkRingSmall_nm m
  have hsnm0 : 0 < (mkRingSmall m).normalized_modulus := by
    rw [hsnm]
    exact Nat.mul_pos hm0 (Nat.two_pow_pos _)
  have hM0 : 0 < M := lt_of_lt_of_le (Nat.two_pow_pos 64) hM
  have hlnm := mkRingLarge_nm M
  have hlnm0 : 0 < (mkRingLarge M).normalized_modulus := mkRingLarge_nm_pos M hM0
  have hlnmlt : (mkRingLarge M).normalized_modulus
      < 2 ^ (64 * (mkRingLarge M).wordLen) := mkRingLarge_nm_lt M
  refine ⟨⟨?_, ?_⟩, ⟨?_, ?_⟩, ?_, ⟨?_, ?_, ?_⟩, ⟨?_, ?_, ?_⟩, ?_⟩
  · rw [smallFromUBig_val m u, hsnm]
    exact (Nat.mul_lt_mul_right (Nat.two_pow_pos _)).mpr (Nat.mod_lt _ hm0)
  · rw [smallFromUBig_val m u]
    exact Nat.mul_mod_left _ _
  · exact Nat.mod_lt _ hsnm0
  · obtain ⟨β, hβ⟩ := Nat.dvd_of_mod_eq_zero hb.2
    unfold smallMulNormalized
    rw [hβ, hsnm, show a >>> (mkRingSmall m).shift * (2 ^ (mkRingSmall m).shift * β)
      = a >>> (mkRingSmall m).shift * β * 2 ^ (mkRingSmall m).shift from by ring,
      Nat.mul_mod_mul_right]
    exact Nat.mul_mod_left _ _
  · obtain ⟨α, hα⟩ := Nat.dvd_of_mod_eq_zero ha.2
    unfold smallResidue
    rw [hα, Nat.mul_comm, mul_pow_shiftRight]
    have := ha.1
    rw [hα, hsnm] at this
    rw [Nat.mul_comm] at this
    exact (Nat.mul_lt_mul_right (Nat.two_pow_pos _)).mp this
  · unfold largeFromUBig
    by_cases hc : wordCount (x <<< (mkRingLarge M).shift) < (mkRingLarge M).wordLen
    · rw [if_pos hc]
      exact natToWordsFixed_length _ _
    · rw [if_neg hc]
      exact natToWordsFixed_length _ _
  · rw [largeFromUBig_val M hM0 x]
    exact Nat.mod_lt _ hlnm0
  · rw [largeFromUBig_val M hM0 x, hlnm, Nat.mul_mod_mul_right]
    exact Nat.mul_mod_left _ _
  · exact natToWordsFixed_length _ _
  · unfold mul_normalized_values
    rw [valWords_natToWordsFixed,
      Nat.mod_eq_of_lt (lt_trans (Nat.mod_lt _ hlnm0) hlnmlt)]
    exact Nat.mod_lt _ hlnm0
  · obtain ⟨α, hα⟩ := Nat.dvd_of_mod_eq_zero hav.2
    obtain ⟨β, hβ⟩ := Nat.dvd_of_mod_eq_zero hbv.2
    unfold mul_normalized_values
    rw [valWords_natToWordsFixed,
      Nat.mod_eq_of_lt (lt_trans (Nat.mod_lt _ hlnm0) hlnmlt)]
    rw [hα, hβ, show 2 ^ (mkRingLarge M).shift * α * (2 ^ (mkRingLarge M).shift * β)
      = α * β * 2 ^ (mkRingLarge M).shift * 2 ^ (mkRingLarge M).shift from by ring,
      mul_pow_shiftRight, hlnm, Nat.mul_mod_mul_right]
    exact Nat.mul_mod_left _ _
  · obtain ⟨α, hα⟩ := Nat.dvd_of_mod_eq_zero hav.2
    unfold largeResidue
    rw [hα, Nat.mul_comm, mul_pow_shiftRight]
    have := hav.1
    rw [hα, hlnm] at this
    rw [Nat.mul_comm] at this
    exact (Nat.mul_lt_mul_right (Nat.two_pow_pos _)).mp this

theorem claim_C5_normalized_invariant_witness :
    (smallFromUBig (mkRingSmall 5) (UBig.small 7) < (mkRingSmall 5).normalized_modulus ∧
      smallFromUBig (mkRingSmall 5) (UBig.small 7) % 2 ^ (mkRingSmall 5).shift = 0) ∧
    (smallMulNormalized (mkRingSmall 5) 0 0 < (mkRingSmall 5).normalized_modulus ∧
      smallMulNormalized (mkRingSmall 5) 0 0 % 2 ^ (mkRingSmall 5).shift = 0) ∧
    smallResidue (mkRingSmall 5) 0 < 5 ∧
    ((largeFromUBig (mkRingLarge (2 ^ 64 + 13)) 7).length
        = (mkRingLarge (2 ^ 64 + 13)).wordLen ∧
      valWords (largeFromUBig (mkRingLarge (2 ^ 64 + 13)) 7)
        < (mkRingLarge (2 ^ 64 + 13)).normalized_modulus ∧
      valWords (largeFromUBig (mkRingLarge (2 ^ 64 + 13)) 7)
        % 2 ^ (mkRingLarge (2 ^ 64 + 13)).shift = 0) ∧
    ((mul_normalized_values (mkRingLarge (2 ^ 64 + 13)) [] []).length
        = (mkRingLarge (2 ^ 64 + 13)).wordLen ∧
      valWords (mul_normalized_values (mkRingLarge (2 ^ 64 + 13)) [] [])
        < (mkRingLarge (2 ^ 64 + 13)).normalized_modulus ∧
      valWords (mul_normalized_values (mkRingLarge (2 ^ 64 + 13)) [] [])
        % 2 ^ (mkRingLarge (2 ^ 64 + 13)).shift = 0) ∧
    largeResidue (mkRingLarge (2 ^ 64 + 13)) [] < 2 ^ 64 + 13 :=
  claim_C5_normalized_invariant 5 (by norm_num) (by norm_num) (UBig.small 7)
    0 0
    (⟨by rw [mkRingSmall_nm]
         exact Nat.mul_pos (by norm_num) (Nat.two_pow_pos _), Nat.zero_mod _⟩)
    (⟨by rw [mkRingSmall_nm]
         exact Nat.mul_pos (by norm_num) (Nat.two_pow_pos _), Nat.zero_mod _⟩)
    (2 ^ 64 + 13) (by norm_num) 7 [] []
    (⟨mkRingLarge_nm_pos _ (by norm_num), Nat.zero_mod _⟩)
    (⟨mkRingLarge_nm_pos _ (by norm_num), Nat.zero_mod _⟩)

/-- C6: multiplying two ring elements that belong to two distinct rings
(distinct by pointer identity, even with equal moduli) is fatal; the same
holds when one element is in the small representation and the other in the
large representation. -/
theorem claim_C6_ring_isolation (e1 e2 : ModuloSmall) (f1 f2 : ModuloLarge)
    (h12 : e1.ringId ≠ e2.ringId) (g12 : f1.ringId ≠ f2.ringId) :
    moduloMul (.small e1) (.small e2) = .error .differentRings ∧
    moduloMul (.large f1) (.large f2) = .error .differentRings ∧
    moduloMul (.small e1) (.large f1) = .error .differentRings ∧
    moduloMul (.large f1) (.small e1) = .error .differentRings := by
  refine ⟨?_, ?_, rfl, rfl⟩
  · unfold moduloMul check_same_ring
    simp [h12]
  · unfold moduloMul check_same_ring
    simp [g12]

theorem claim_C6_ring_isolation_witness :
    moduloMul (.small ⟨0, mkRingSmall 7, 1⟩) (.small ⟨0, mkRingSmall 7, 2⟩)
      = .error .differentRings ∧
    moduloMul (.large ⟨[], mkRingLarge 7, 3⟩) (.large ⟨[], mkRingLarge 7, 4⟩)
      = .error .differentRings ∧
    moduloMul (.small ⟨0, mkRingSmall 7, 1⟩) (.large ⟨[], mkRingLarge 7, 3⟩)
      = .error .differentRings ∧
    moduloMul (.large ⟨[], mkRingLarge 7, 3⟩) (.small ⟨0, mkRingSmall 7, 1⟩)
      = .error .differentRings :=
  claim_C6_ring_isolation ⟨0, mkRingSmall 7, 1⟩ ⟨0, mkRingSmall 7, 2⟩
    ⟨[], mkRingLarge 7, 3⟩ ⟨[], mkRingLarge 7, 4⟩ (by norm_num) (by norm_num)

/-- C8: when formatting with a minimum width larger than the content width,
zero-pad writes the sign and the radix marker first and then the padding
zeros before the digits, suppressing the fill character; without zero-pad the
number is right-aligned by default, and left and center alignment and the
fill character are honored; sign-plus makes the sign of a non-negative value
`+`. -/
theorem claim_C8_format_directives (sign : Sign) (pfx digits signStr : List Char)
    (opts : FmtOptions) (minWidth width pad : Nat)
    (hw : opts.width = some minWidth)
    (hs : signStr = if sign = Sign.negative then ['-']
      else if opts.signPlus then ['+'] else [])
    (hwidth : width = digits.length + signStr.length + pfx.length)
    (hpad : pad = minWidth - width)
    (hlt : width < minWidth) :
    (opts.zeroPad = true →
      format_prepared sign pfx opts digits
        = signStr ++ pfx ++ List.replicate pad '0' ++ digits) ∧
    (opts.zeroPad = false → opts.align = none ∨ opts.align = some Alignment.right →
      format_prepared sign pfx opts digits
        = List.replicate pad opts.fill ++ signStr ++ pfx ++ digits) ∧
    (opts.zeroPad = false → opts.align = some Alignment.left →
      format_prepared sign pfx opts digits
        = signStr ++ pfx ++ digits ++ List.replicate pad opts.fill) ∧
    (opts.zeroPad = false → opts.align = some Alignment.center →
      format_prepared sign pfx opts digits
        = List.replicate (pad / 2) opts.fill ++ signStr ++ pfx ++ digits
          ++ List.replicate (pad - pad / 2) opts.fill) ∧
    (sign = Sign.positive → opts.signPlus = true → signStr = ['+']) := by
  subst hs
  subst hwidth
  subst hpad
  refine ⟨?_, ?_, ?_, ?_, ?_⟩
  · intro hz
    simp only [format_prepared, hw]
    rw [if_neg (by omega), hz]
    simp
  · intro hz hal
    simp only [format_prepared, hw]
    rw [if_neg (by omega), hz]
    simp only [Bool.false_eq_true, if_false]
    rcases hal with hal | hal <;> rw [hal] <;> simp
  · intro hz hal
    simp only [format_prepared, hw]
    rw [if_neg (by omega), hz, hal]
    simp
  · intro hz hal
    simp only [format_prepared, hw]
    rw [if_neg (by omega), hz, hal]
    simp
  · intro h1 h2
    rw [h1, h2]
    simp

theorem claim_C8_format_directives_witness :
    ((FmtOptions.mk (some 10) ' ' none true true).zeroPad = true →
      format_prepared Sign.positive ['0', 'x'] (FmtOptions.mk (some 10) ' ' none true true)
          ['a', 'b']
        = ['+'] ++ ['0', 'x'] ++ List.replicate 5 '0' ++ ['a', 'b']) ∧
    ((FmtOptions.mk (some 10) ' ' none true true).zeroPad = false →
      (FmtOptions.mk (some 10) ' ' none true true).align = none ∨
        (FmtOptions.mk (some 10) ' ' none true true).align = some Alignment.right →
      format_prepared Sign.positive ['0', 'x'] (FmtOptions.mk (some 10) ' ' none true true)
          ['a', 'b']
        = List.replicate 5 (FmtOptions.mk (some 10) ' ' none true true).fill
          ++ ['+'] ++ ['0', 'x'] ++ ['a', 'b']) ∧
    ((FmtOptions.mk (some 10) ' ' none true true).zeroPad = false →
      (FmtOptions.mk (some 10) ' ' none true true).align = some Alignment.left →
      format_prepared Sign.positive ['0', 'x'] (FmtOptions.mk (some 10) ' ' none true true)
          ['a', 'b']
        = ['+'] ++ ['0', 'x'] ++ ['a', 'b']
          ++ List.replicate 5 (FmtOptions.mk (some 10) ' ' none true true).fill) ∧
    ((FmtOptions.mk (some 10) ' ' none true true).zeroPad = false →
      (FmtOptions.mk (some 10) ' ' none true true).align = some Alignment.center →
      format_prepared Sign.positive ['0', 'x'] (FmtOptions.mk (some 10) ' ' none true true)
          ['a', 'b']
        = List.replicate (5 / 2) (FmtOptions.mk (some 10) ' ' none true true).fill
          ++ ['+'] ++ ['0', 'x'] ++ ['a', 'b']
          ++ List.replicate (5 - 5 / 2) (FmtOptions.mk (some 10) ' ' none true true).fill) ∧
    (Sign.positive = Sign.positive →
      (FmtOptions.mk (some 10) ' ' none true true).signPlus = true → (['+'] : List Char)
        = ['+']) := by
  have h := claim_C8_format_directives Sign.positive ['0', 'x'] ['a', 'b'] ['+']
    (FmtOptions.mk (some 10) ' ' none true true) 10 5 5 rfl (by decide) (by decide)
    (by decide) (by decide)
  exact h

end Ibig
